import Mathlib

/-
  Verification development for the qrust QR-code encoder.

  The definitions below are a shallow embedding of src/encode.rs and
  src/matrix.rs.  Machine integers (usize, u8, u32) are modelled as Nat;
  every arithmetic value occurring in the source stays far below any
  overflow boundary, so no explicit wrap-around is needed.  Rust panics
  are modelled as explicit result constructors.  Types that live in
  repository files not present under src (qrcode.rs, data.rs,
  codewords.rs) are modelled from the spec and marked as such.

  Layout: all definitions first, then all theorems.
-/

namespace QRust

/-- Modelled from the spec: the eight mask patterns M0 to M7 of qrcode.rs,
identified by index (the discriminant used by the source when indexing
FORMAT_INFO and when matching in apply_mask). -/
inductive Mask
  | M0 | M1 | M2 | M3 | M4 | M5 | M6 | M7
deriving DecidableEq

def Mask.toNat : Mask → Nat
  | .M0 => 0 | .M1 => 1 | .M2 => 2 | .M3 => 3
  | .M4 => 4 | .M5 => 5 | .M6 => 6 | .M7 => 7

/-- Modelled from the spec: the four error-correction levels of qrcode.rs in
declaration order Low, Medium, Quartile, High; toNat is the discriminant the
source uses for the ecl-as-usize indexing of FORMAT_INFO. -/
inductive ECL
  | Low | Medium | Quartile | High
deriving DecidableEq

def ECL.toNat : ECL → Nat
  | .Low => 0 | .Medium => 1 | .Quartile => 2 | .High => 3

/-- Modelled from the spec: the segment encoding modes of qrcode.rs. -/
inductive Mode
  | Numeric | Alphanumeric | Byte
deriving DecidableEq

/-- Big-endian (most significant bit first) bit expansion of value v in n bits,
matching the bit order the data.rs tests pin down for push_bits. -/
def bitsOfNat : Nat → Nat → List Bool
  | 0, _ => []
  | n + 1, v => bitsOfNat n (v >>> 1) ++ [(v &&& 1) == 1]

/-- Value of a most-significant-bit-first bit list. -/
def natOfBits (l : List Bool) : Nat :=
  l.foldl (fun a b => 2 * a + (if b then 1 else 0)) 0

/-- Modelled from the spec: the Data bit stream of data.rs, an ordered bit
sequence with the version it is being built for.  Only the fields the
encoders in src/encode.rs read are modelled. -/
structure Data where
  version : Nat
  bits : List Bool
deriving DecidableEq

/-- Modelled from the spec: Data push_bits of data.rs appends the n-bit
big-endian representation of value to the stream. -/
def push_bits (d : Data) (value len : Nat) : Data :=
  { d with bits := d.bits ++ bitsOfNat len value }

/-- bits_char_count_indicator from src/encode.rs. -/
def bits_char_count_indicator (version : Nat) (mode : Mode) : Nat :=
  if mode = Mode.Byte then
    (if version < 10 then 8 else 16)
  else
    let base : Nat := match mode with
      | Mode.Numeric => 10
      | _ => 9
    let base := if version > 9 then base + 2 else base
    if version > 26 then base + 2 else base

/-- ascii_to_b45 from src/encode.rs; the unreachable panic branch is modelled
as none.  The guard order mirrors the source match arm order. -/
def ascii_to_b45 (c : Nat) : Option Nat :=
  if c ≥ 65 then some (c - 65 + 10)
  else if c = 58 then some 44
  else if c ≥ 48 then some (c - 48)
  else if c = 32 then some 36
  else if c = 36 then some 37
  else if c = 37 then some 38
  else if c = 42 then some 39
  else if c = 43 then some 40
  else if c = 45 then some 41
  else if c = 46 then some 42
  else if c = 47 then some 43
  else none

/-- Digit-group payload loop of encode_numeric: the source iterates the index
loop over input.len()/3 three-digit groups in order and then switches on
input.len() % 3 to emit the final two-digit (7 bit) or one-digit (4 bit)
group; consuming the byte list three at a time performs the same pushes in
the same order. -/
def numGroups : Data → List Nat → Data
  | d, a :: b :: c :: t =>
      numGroups (push_bits d ((a - 48) * 100 + (b - 48) * 10 + (c - 48)) 10) t
  | d, [a, b] => push_bits d ((a - 48) * 10 + (b - 48)) 7
  | d, [a] => push_bits d (a - 48) 4
  | d, [] => d

/-- encode_numeric from src/encode.rs (input as its byte list). -/
def encode_numeric (qrdata : Data) (input : List Nat) : Data :=
  let d := push_bits qrdata 1 4
  let d := push_bits d input.length (bits_char_count_indicator d.version Mode.Numeric)
  numGroups d input

/-- Result of an encoder that can hit a Rust panic: panicked carries the Data
state (bits already pushed) at the moment the panic is raised. -/
inductive EncodeResult
  | ok (d : Data)
  | panicked (d : Data)
deriving DecidableEq

/-- Character-pair payload loop of encode_alphanumeric: the source iterates
input.len()/2 pairs in order (11 bits each) and then a trailing single
character (6 bits) when the length is odd; consuming the byte list two at a
time performs the same pushes in the same order.  A character on which
ascii_to_b45 panics aborts the encoding with the bits pushed so far. -/
def alphaGroups : Data → List Nat → EncodeResult
  | d, a :: b :: t =>
      match ascii_to_b45 a, ascii_to_b45 b with
      | some x, some y => alphaGroups (push_bits d (x * 45 + y) 11) t
      | _, _ => EncodeResult.panicked d
  | d, [a] =>
      match ascii_to_b45 a with
      | some x => EncodeResult.ok (push_bits d x 6)
      | none => EncodeResult.panicked d
  | d, [] => EncodeResult.ok d

/-- encode_alphanumeric from src/encode.rs (input as its byte list). -/
def encode_alphanumeric (qrdata : Data) (input : List Nat) : EncodeResult :=
  let d := push_bits qrdata 2 4
  let d := push_bits d input.length (bits_char_count_indicator d.version Mode.Alphanumeric)
  alphaGroups d input

/-- Fuel-driven base-2 logarithm; log2f 32 d + 1 is the bit length
usize::BITS - d.leading_zeros() the source computes for d > 0. -/
def log2f : Nat → Nat → Nat
  | 0, _ => 0
  | fuel + 1, n => if n ≥ 2 then log2f fuel (n / 2) + 1 else 0

/-- The XOR-shift division loop of version_info in src/encode.rs: while the
dividend still reaches bit 12, align the generator 0b1111100100101 with the
highest set bit of the dividend and XOR it off.  Each step strictly lowers
the bit length of the 18-bit dividend, so 32 fuel is never exhausted. -/
def vinfoReduce : Nat → Nat → Nat
  | 0, d => d
  | fuel + 1, d =>
      if d ≥ 0x1000 then
        vinfoReduce fuel (d ^^^ (0b1111100100101 <<< (log2f 32 d + 1 - 13)))
      else d

/-- VERSION_INFO from src/encode.rs, as the function of the version index:
the source builds a 41-entry array whose entry v for v in 1..=40 is
(v << 12) | remainder and whose entry 0 stays 0. -/
def VERSION_INFO (version : Nat) : Nat :=
  if 1 ≤ version ∧ version ≤ 40 then
    let shifted := version <<< 12
    shifted ||| vinfoReduce 32 shifted
  else 0

/-- The XOR-shift division loop of format_info in src/encode.rs, generator
0b10100110111, threshold bit 10. -/
def finfoReduce : Nat → Nat → Nat
  | 0, d => d
  | fuel + 1, d =>
      if d ≥ 0b10000000000 then
        finfoReduce fuel (d ^^^ (0b10100110111 <<< (log2f 32 d + 1 - 11)))
      else d

/-- The non-monotonic ECL bit mapping of format_info in src/encode.rs. -/
def eclValue : ECL → Nat
  | ECL.Low => 1
  | ECL.Medium => 0
  | ECL.Quartile => 3
  | ECL.High => 2

/-- FORMAT_INFO from src/encode.rs, as a function of the (ecl, mask) index
pair of the 4 x 8 table the source builds. -/
def FORMAT_INFO (ecl : ECL) (mask : Mask) : Nat :=
  let format := ((eclValue ecl <<< 3) ||| mask.toNat) <<< 10
  (format ||| finfoReduce 32 format) ^^^ 0b101010000010010

/-- Binary polynomial (XOR-shift) remainder of d modulo the generator g, the
classic division the spec describes: while the degree of d is at least the
degree of g, XOR g shifted up by the degree difference.  Written against the
claim wording, independently of the source loops. -/
def specPolyMod (g : Nat) : Nat → Nat → Nat
  | 0, d => d
  | fuel + 1, d =>
      if d < 2 ^ log2f 32 g then d
      else specPolyMod g fuel (d ^^^ (g <<< (log2f 32 d - log2f 32 g)))

/-- The numeric payload the claim describes: each 3-digit group as its value
in 10 bits, a trailing 2-digit group in 7 bits, a trailing digit in 4
bits. -/
def specNumPayload : List Nat → List Bool
  | a :: b :: c :: t =>
      bitsOfNat 10 ((a - 48) * 100 + (b - 48) * 10 + (c - 48)) ++ specNumPayload t
  | [a, b] => bitsOfNat 7 ((a - 48) * 10 + (b - 48))
  | [a] => bitsOfNat 4 (a - 48)
  | [] => []

/-- The b45 value of a character, defaulting to 0 on the panic branch. -/
def b45v (c : Nat) : Nat := (ascii_to_b45 c).getD 0

/-- The 45-character domain of the alphanumeric mode, in code-point order of
the b45 values 0 to 44. -/
def alphaDomain : List Nat :=
  [48, 49, 50, 51, 52, 53, 54, 55, 56, 57,
   65, 66, 67, 68, 69, 70, 71, 72, 73, 74, 75, 76, 77, 78, 79, 80, 81, 82,
   83, 84, 85, 86, 87, 88, 89, 90,
   32, 36, 37, 42, 43, 45, 46, 47, 58]

/-- The inverse of the 45-symbol mapping, reading the domain list at the b45
value. -/
def b45inv (n : Nat) : Nat := alphaDomain.getD n 0

/-- The alphanumeric payload: pairs as c0 * 45 + c1 in 11 bits, a trailing
single character in 6 bits. -/
def specAlphaPayload : List Nat → List Bool
  | a :: b :: t => bitsOfNat 11 (b45v a * 45 + b45v b) ++ specAlphaPayload t
  | [a] => bitsOfNat 6 (b45v a)
  | [] => []

/-- The decoder the claim describes: read the declared number of characters
back off the payload through the inverse mapping. -/
def decodeAlpha : Nat → List Bool → List Nat
  | 0, _ => []
  | 1, bits => [b45inv (natOfBits (bits.take 6))]
  | n + 2, bits =>
      let g := natOfBits (bits.take 11)
      b45inv (g / 45) :: b45inv (g % 45) :: decodeAlpha n (bits.drop 11)

/-- Module from src/matrix.rs: one grid cell state.  The constructor order
matches the Rust enum, so toU8 below is the discriminant the source obtains
with the as-u8 casts. -/
inductive Module
  | DataOFF | DataON
  | FinderOFF | FinderON
  | AlignmentOFF | AlignmentON
  | TimingOFF | TimingON
  | FormatOFF | FormatON
  | VersionOFF | VersionON
  | Separator | Unset
deriving DecidableEq

/-- The u8 discriminant of a Module value. -/
def Module.toU8 : Module → Nat
  | .DataOFF => 0 | .DataON => 1
  | .FinderOFF => 2 | .FinderON => 3
  | .AlignmentOFF => 4 | .AlignmentON => 5
  | .TimingOFF => 6 | .TimingON => 7
  | .FormatOFF => 8 | .FormatON => 9
  | .VersionOFF => 10 | .VersionON => 11
  | .Separator => 12 | .Unset => 13

/-- Matrix from src/matrix.rs. -/
structure Matrix where
  value : List Module
  width : Nat
  version : Nat
  ecl : ECL
  mask : Mask
deriving DecidableEq

/-- Matrix set from src/matrix.rs: write cell (x, y) at flat index
x * width + y.  An out-of-range index would panic in Rust; List.set makes it
a no-op, and every write issued by the builder is in range. -/
def Matrix.set (m : Matrix) (x y : Nat) (module : Module) : Matrix :=
  { m with value := m.value.set (x * m.width + y) module }

/-- Matrix get from src/matrix.rs.  An out-of-range index would panic in
Rust; the Unset default is never observed on the in-range accesses the
builder performs. -/
def Matrix.get (m : Matrix) (x y : Nat) : Module :=
  m.value.getD (x * m.width + y) Module.Unset

/-- score dark_proportion from src/matrix.rs, including its integer
arithmetic exactly: dark counts only DataON cells and the percent
computation divides dark * 20 by 20 * width * width. -/
def dark_proportion (m : Matrix) : Nat :=
  let dark := m.value.countP (fun x => x == Module.DataON)
  let percent := dark * 20 / (20 * m.width * m.width)
  let middle := 50
  let pm := if percent < middle then (middle, percent) else (percent, middle)
  10 * ((pm.1 - pm.2) / 5)

/-- score blocks from src/matrix.rs: 3 points per 2 x 2 same-color block. -/
def blocks (m : Matrix) : Nat :=
  (List.range (m.width - 1)).foldl (fun sc i =>
    (List.range (m.width - 1)).foldl (fun sc j =>
      let curr := (m.get i j).toU8 &&& 1
      let tr := (m.get (i + 1) j).toU8 &&& 1
      let bl := (m.get i (j + 1)).toU8 &&& 1
      let br := (m.get (i + 1) (j + 1)).toU8 &&& 1
      if curr = tr ∧ curr = bl ∧ curr = br then sc + 3 else sc) sc) 0

def pattern_1 : List Nat := [0, 0, 0, 0, 1, 0, 1, 1, 1, 0, 1]

def pattern_2 : List Nat := [1, 0, 1, 1, 1, 0, 1, 0, 0, 0, 0]

/-- The per-position scan state of score line_patterns in src/matrix.rs. -/
structure LineScanState where
  streak : Nat
  streak_v : Nat
  finder_i : Nat
  finder_j : Nat
  sc : Nat
deriving DecidableEq

/-- One iteration of the inner j loop of line_patterns, in source order:
streak update (note the source resets streak to 0, not 1, on a color
change), then the pattern_1 scan, then the pattern_2 scan. -/
def lineStep (curr : Nat) (st : LineScanState) : LineScanState :=
  let st :=
    if curr = st.streak_v then
      let streak := st.streak + 1
      let sc := if streak = 5 then st.sc + 3 else if streak > 5 then st.sc + 1 else st.sc
      { st with streak := streak, sc := sc }
    else
      { st with streak := 0, streak_v := curr }
  let st :=
    if curr = pattern_1.getD st.finder_i 0 then
      if st.finder_i + 1 = pattern_1.length then { st with sc := st.sc + 40, finder_i := 0 }
      else { st with finder_i := st.finder_i + 1 }
    else { st with finder_i := 0 }
  if curr = pattern_2.getD st.finder_j 0 then
    if st.finder_j + 1 = pattern_2.length then { st with sc := st.sc + 40, finder_j := 0 }
    else { st with finder_j := st.finder_j + 1 }
  else { st with finder_j := 0 }

/-- score line_patterns from src/matrix.rs: scans every line (columns of the
flat layout when col is true, rows otherwise) for streaks and for the two
finder-look-alike patterns. -/
def line_patterns (m : Matrix) (col : Bool) : Nat :=
  let im := if col then m.width else 1
  let jm := if col then 1 else m.width
  (List.range m.width).foldl (fun sc i =>
    let v0 := (m.value.getD (i * im) Module.Unset).toU8 &&& 1
    let st0 : LineScanState :=
      { streak := 1, streak_v := v0,
        finder_i := if v0 = pattern_1.getD 0 0 then 1 else 0,
        finder_j := if v0 = pattern_2.getD 0 0 then 1 else 0,
        sc := sc }
    ((List.range' 1 (m.width - 1)).foldl (fun st j =>
        lineStep ((m.value.getD (i * im + j * jm) Module.Unset).toU8 &&& 1) st) st0).sc) 0

/-- score from src/matrix.rs: the sum of the four penalty heuristics. -/
def score (m : Matrix) : Nat :=
  dark_proportion m + blocks m + line_patterns m true + line_patterns m false

/-- Modelled from the spec: Codewords of codewords.rs, the final byte
sequence tagged with the version and ECL that produced it (the three fields
matrix.rs reads). -/
structure Codewords where
  value : List Nat
  version : Nat
  ecl : ECL

/-- The boolean mask predicates of apply_mask in src/matrix.rs. -/
def mask_bit (mask : Mask) (row col : Nat) : Bool :=
  match mask with
  | .M0 => (row + col) % 2 == 0
  | .M1 => row % 2 == 0
  | .M2 => col % 3 == 0
  | .M3 => (row + col) % 3 == 0
  | .M4 => (row / 2 + col / 3) % 2 == 0
  | .M5 => (row * col) % 2 + (row * col) % 3 == 0
  | .M6 => ((row * col) % 2 + (row * col) % 3) % 2 == 0
  | .M7 => ((row + col) % 2 + (row * col) % 3) % 2 == 0

/-- The cell transform of apply_mask in src/matrix.rs: skip any module whose
discriminant OR 1 is not 1 (everything except DataOFF and DataON), XOR the
data bit with the mask bit otherwise. -/
def maskCell (mask : Mask) (width idx : Nat) (module : Module) : Module :=
  if module.toU8 ||| 1 ≠ 1 then module
  else if module.toU8 ^^^ (if mask_bit mask (idx / width) (idx % width) then 1 else 0) = 1
    then Module.DataON else Module.DataOFF

/-- Pointwise map over a module list carrying the flat index. -/
def mapCells (f : Nat → Module → Module) : Nat → List Module → List Module
  | _, [] => []
  | k, mo :: rest => f k mo :: mapCells f (k + 1) rest

/-- apply_mask from src/matrix.rs.  The source double loop over i and j
reads and writes each flat index i * width + j exactly once, independently
of every other cell, so on the builder grids (whose value length is always
width * width) it is the pointwise map of maskCell over flat indices. -/
def apply_mask (m : Matrix) : Matrix :=
  { m with value := mapCells (maskCell m.mask m.width) 0 m.value }

/-- Run a list of (x, y, module) writes through Matrix.set in order; the
placement phases below are loops of unconditional set calls in the source
and are embedded as their write lists. -/
def setAll (m : Matrix) (l : List (Nat × Nat × Module)) : Matrix :=
  l.foldl (fun acc e => acc.set e.1 e.2.1 e.2.2) m

/-- The flat index a write entry targets. -/
def entryIdx (w : Nat) (e : Nat × Nat × Module) : Nat := e.1 * w + e.2.1

/-- The cell at flat index k holds a non-Unset module (and in particular k
is in range, since an out-of-range getD defaults to Unset). -/
def noUnsetAt (v : List Module) (k : Nat) : Prop :=
  v.getD k Module.Unset ≠ Module.Unset

/-- The module of the last entry of L that targets flat index k, if any. -/
def lastWrite (w k : Nat) : List (Nat × Nat × Module) → Option Module
  | [] => none
  | e :: t =>
      match lastWrite w k t with
      | some mo => some mo
      | none => if entryIdx w e = k then some e.2.2 else none

/-- Two matrices agree on width, version, ECL and grid size (the mask field
is tracked separately, since the selection loop rewrites it). -/
def sameShape (a b : Matrix) : Prop :=
  a.width = b.width ∧ a.version = b.version ∧ a.ecl = b.ecl
  ∧ a.value.length = b.value.length

/-- The writes of place_pattern inside place_finder of src/matrix.rs, for
the 7 x 7 pattern whose top-left cell is (col, row): one full ON line, one
ON/OFF-run/ON line, three ON OFF ON ON ON OFF ON lines, one ON/OFF-run/ON
line, one full ON line, in source order. -/
def finderPattern (col row : Nat) : List (Nat × Nat × Module) :=
  (List.range 7).map (fun i => (col + i, row, Module.FinderON))
  ++ ((col, row + 1, Module.FinderON)
      :: (List.range' 1 5).map (fun i => (col + i, row + 1, Module.FinderOFF))
      ++ [(col + 6, row + 1, Module.FinderON)])
  ++ (List.range' 2 3).flatMap (fun r =>
      [(col, row + r, Module.FinderON), (col + 1, row + r, Module.FinderOFF),
       (col + 2, row + r, Module.FinderON), (col + 3, row + r, Module.FinderON),
       (col + 4, row + r, Module.FinderON), (col + 5, row + r, Module.FinderOFF),
       (col + 6, row + r, Module.FinderON)])
  ++ ((col, row + 5, Module.FinderON)
      :: (List.range' 1 5).map (fun i => (col + i, row + 5, Module.FinderOFF))
      ++ [(col + 6, row + 5, Module.FinderON)])
  ++ (List.range 7).map (fun i => (col + i, row + 6, Module.FinderON))

/-- The write list of place_finder of src/matrix.rs: the three finder
patterns and their separator runs, in source order. -/
def finderEntries (w : Nat) : List (Nat × Nat × Module) :=
  finderPattern 0 0
  ++ (List.range 8).map (fun i => (i, 7, Module.Separator))
  ++ (List.range 7).map (fun i => (7, i, Module.Separator))
  ++ finderPattern 0 (w - 7)
  ++ (List.range 8).map (fun i => (i, w - 8, Module.Separator))
  ++ (List.range 7).map (fun i => (7, w - 1 - i, Module.Separator))
  ++ finderPattern (w - 7) 0
  ++ (List.range 8).map (fun i => (w - 1 - i, 7, Module.Separator))
  ++ (List.range 7).map (fun i => (w - 8, i, Module.Separator))

def place_finder (m : Matrix) : Matrix :=
  setAll m (finderEntries m.width)

/-- The first copy position of format bit i in place_format of
src/matrix.rs, as (x, y). -/
def formatCoord1 (i : Nat) : Nat × Nat :=
  (if i < 8 then 8 else if i = 8 then 7 else 14 - i,
   if i < 6 then i else if i = 6 then 7 else 8)

/-- The second (mirrored) copy position of format bit i. -/
def formatCoord2 (w i : Nat) : Nat × Nat :=
  (if i < 8 then w - (i + 1) else 8,
   if i < 8 then 8 else w - (15 - i))

/-- All cell positions place_format writes (both copies of the 15 bits plus
the always-ON dark module). -/
def formatPos (w : Nat) : List (Nat × Nat) :=
  (List.range 15).flatMap (fun i => [formatCoord1 i, formatCoord2 w i]) ++ [(8, w - 8)]

/-- The write list of place_format of src/matrix.rs for a 15-bit format
word. -/
def formatEntries (w info : Nat) : List (Nat × Nat × Module) :=
  (List.range 15).flatMap (fun i =>
    let module := if (info >>> i) &&& 1 = 1 then Module.FormatON else Module.FormatOFF
    [((formatCoord1 i).1, (formatCoord1 i).2, module),
     ((formatCoord2 w i).1, (formatCoord2 w i).2, module)])
  ++ [(8, w - 8, Module.FormatON)]

def place_format (m : Matrix) : Matrix :=
  setAll m (formatEntries m.width (FORMAT_INFO m.ecl m.mask))

/-- The write list of place_timing of src/matrix.rs. -/
def timingEntries (w : Nat) : List (Nat × Nat × Module) :=
  (List.range (w - 16)).flatMap (fun i =>
    let module := if i &&& 1 = 0 then Module.TimingON else Module.TimingOFF
    [(8 + i, 6, module), (6, 8 + i, module)])

def place_timing (m : Matrix) : Matrix :=
  setAll m (timingEntries m.width)

/-- The write list of place_version of src/matrix.rs. -/
def versionEntries (w info : Nat) : List (Nat × Nat × Module) :=
  (List.range 18).flatMap (fun i =>
    let module := if (info >>> i) &&& 1 = 1 then Module.VersionON else Module.VersionOFF
    [(i / 3, i % 3 + w - 11, module), (i % 3 + w - 11, i / 3, module)])

def place_version (m : Matrix) : Matrix :=
  if m.version < 7 then m
  else setAll m (versionEntries m.width (VERSION_INFO m.version))

/-- ALIGN_COORDS from src/matrix.rs. -/
def ALIGN_COORDS : List Nat :=
  [16, 18, 20, 22, 24, 26, 28,
   20, 22, 24, 24, 26, 28, 28,
   22, 24, 24, 26, 26, 28, 28,
   24, 24, 26, 26, 26, 28, 28,
   24, 26, 26, 26, 28, 28]

/-- The coords vector built by place_alignment of src/matrix.rs: first 6,
then (for version at least 7) last - i * spacing for i from len - 2 down to
1, then last. -/
def alignCoords (version w : Nat) : List Nat :=
  let last := w - 7
  let len := version / 7 + 2
  [6]
  ++ (if version ≥ 7 then
        ((List.range' 1 (len - 2)).reverse).map
          (fun i => last - i * ALIGN_COORDS.getD (version - 7) 0)
      else [])
  ++ [last]

/-- The writes of one 5 x 5 alignment pattern whose top-left cell is
(col, row), in source order (left edge, three middle columns, center,
right edge). -/
def alignPatternEntries (col row : Nat) : List (Nat × Nat × Module) :=
  (List.range 5).map (fun i => (col, row + i, Module.AlignmentON))
  ++ (List.range' 1 3).flatMap (fun i =>
      [(col + i, row, Module.AlignmentON),
       (col + i, row + 1, Module.AlignmentOFF),
       (col + i, row + 2, Module.AlignmentOFF),
       (col + i, row + 3, Module.AlignmentOFF),
       (col + i, row + 4, Module.AlignmentON)])
  ++ [(col + 2, row + 2, Module.AlignmentON)]
  ++ (List.range 5).map (fun i => (col + 4, row + i, Module.AlignmentON))

/-- The write list of place_alignment of src/matrix.rs: all (i, j) pattern
slots except the three finder corners. -/
def alignEntries (version w : Nat) : List (Nat × Nat × Module) :=
  let coords := alignCoords version w
  let len := version / 7 + 2
  (List.range len).flatMap (fun i =>
    (List.range len).flatMap (fun j =>
      if (i = 0 ∧ (j = 0 ∨ j = len - 1)) ∨ (i = len - 1 ∧ j = 0) then []
      else alignPatternEntries (coords.getD i 0 - 2) (coords.getD j 0 - 2)))

def place_alignment (m : Matrix) : Matrix :=
  if m.version = 1 then m
  else setAll m (alignEntries m.version m.width)

/-- place_module inside place_data of src/matrix.rs: on a still-Unset cell,
write data bit i (most significant bit first within each codeword byte) and
advance the bit counter.  A byte read past the end of the codewords (a
panic in the source, which cannot happen on capacity-matched input) is
modelled as 0. -/
def place_module (m : Matrix) (qr : List Nat) (col row i : Nat) : Matrix × Nat :=
  if m.get col row = Module.Unset then
    let module := if (qr.getD (i / 8) 0 >>> (7 - i % 8)) &&& 1 = 1
      then Module.DataON else Module.DataOFF
    (m.set col row module, i + 1)
  else (m, i)

/-- One vertical pass of the zigzag of place_data: place the (col, r) and
(col - 1, r) cells for each row r in the given order. -/
def placeRun (qr : List Nat) (col : Nat) (rows : List Nat) (st : Matrix × Nat) :
    Matrix × Nat :=
  rows.foldl (fun st r =>
    let st2 := place_module st.1 qr col r st.2
    place_module st2.1 qr (col - 1) r st2.2) st

/-- The outer loop of place_data of src/matrix.rs.  The source alternates a
full-height downward pass and a full-height upward pass (the row cursor is
always back at the edge when a pass starts), decrements the column pair by
2 with the column-6 timing skip between the passes, and stops after the
upward pass at column 1.  Structural fuel stands in for the source loop;
width fuel is more than the width / 4 + 1 iterations the loop makes. -/
def place_data_go (qr : List Nat) : Nat → Matrix × Nat → Nat → Matrix
  | 0, st, _ => st.1
  | fuel + 1, st, col =>
    let st := placeRun qr col (List.range st.1.width).reverse st
    let col := if col - 2 = 6 then col - 3 else col - 2
    let st := placeRun qr col (List.range st.1.width) st
    if col = 1 then st.1 else place_data_go qr fuel st (col - 2)

def place_data (m : Matrix) (qr : Codewords) : Matrix :=
  place_data_go qr.value m.width (m, 0) (m.width - 1)

/-- place_all from src/matrix.rs. -/
def place_all (m : Matrix) (codewords : Codewords) : Matrix :=
  apply_mask
    (place_data
      (place_alignment (place_version (place_timing (place_format (place_finder m)))))
      codewords)

/-- The candidate list of the mask-selection loop in Matrix::new. -/
def maskList : List Mask :=
  [Mask.M1, Mask.M2, Mask.M3, Mask.M4, Mask.M5, Mask.M6, Mask.M7]

/-- The body of the mask-selection loop in Matrix::new: undo the previous
mask (the mask field still holds it), switch to the candidate, apply it,
re-stamp the format bits, score, and keep the strictly better minimum. -/
def selectStep (st : Matrix × Nat × Mask) (mk : Mask) : Matrix × Nat × Mask :=
  let mat := apply_mask st.1
  let mat := { mat with mask := mk }
  let mat := apply_mask mat
  let mat := place_format mat
  let s := score mat
  if s < st.2.1 then (mat, s, mk) else (mat, st.2.1, st.2.2)

/-- The fresh width x width all-Unset matrix Matrix::new starts from, with
the given mask field. -/
def initMatrix (cw : Codewords) (mk : Mask) : Matrix :=
  { width := cw.version * 4 + 17,
    value := List.replicate ((cw.version * 4 + 17) * (cw.version * 4 + 17)) Module.Unset,
    version := cw.version,
    ecl := cw.ecl,
    mask := mk }

/-- The state of the mask-selection loop of Matrix::new after all seven
candidate iterations, starting from the placed M0 build as the source does
when no mask is forced. -/
def selectState (cw : Codewords) : Matrix × Nat × Mask :=
  maskList.foldl selectStep
    (place_all (initMatrix cw Mask.M0) cw,
     score (place_all (initMatrix cw Mask.M0) cw),
     (place_all (initMatrix cw Mask.M0) cw).mask)

/-- Matrix::new from src/matrix.rs: allocate the all-Unset grid with the
forced mask (or M0), run place_all, and, when no mask was forced, run the
selection loop and commit the winner (undo, apply, re-stamp format) when it
differs from the currently applied mask.  The source builds the start
matrix once before branching on the option; the construction is factored
through initMatrix and selectState here, with the same mask field in each
branch. -/
def Matrix.new (codewords : Codewords) (mask : Option Mask) : Matrix :=
  match mask with
  | some mv => place_all (initMatrix codewords mv) codewords
  | none =>
    let st := selectState codewords
    if st.2.2 ≠ st.1.mask then
      let mat := apply_mask st.1
      let mat := { mat with mask := st.2.2 }
      place_format (apply_mask mat)
    else st.1

/-- The winning mask of the selection loop, described from the loop result:
starting from the M0 candidate, a later candidate wins only with a strictly
smaller score, each candidate scored as the fresh single-mask build. -/
def bestMask (codewords : Codewords) : Mask :=
  (maskList.foldl (fun (best : Nat × Mask) mk =>
      let s := score (Matrix.new codewords (some mk))
      if s < best.1 then (s, mk) else best)
    (score (Matrix.new codewords (some Mask.M0)), Mask.M0)).2

/-- The flat indices of the cells place_format writes (both format copies
plus the dark module). -/
def formatIdx (w : Nat) : List Nat :=
  (formatPos w).map (fun p => p.1 * w + p.2)

/-- The builder grid after the finder stage of place_all. -/
def stage1 (cw : Codewords) (mk : Mask) : Matrix :=
  place_finder (initMatrix cw mk)

/-- The builder grid after the first format stamping of place_all. -/
def stage2 (cw : Codewords) (mk : Mask) : Matrix :=
  place_format (stage1 cw mk)

/-- The builder grid after the timing stage of place_all. -/
def stage3 (cw : Codewords) (mk : Mask) : Matrix :=
  place_timing (stage2 cw mk)

/-- The builder grid after the version stage of place_all. -/
def stage4 (cw : Codewords) (mk : Mask) : Matrix :=
  place_version (stage3 cw mk)

/-- The builder grid after all five stamping stages of place_all. -/
def stamped (cw : Codewords) (mk : Mask) : Matrix :=
  place_alignment (stage4 cw mk)

/-- The builder grid of place_all just before the final apply_mask: the five
stamping stages followed by the zigzag data placement. -/
def preMask (cw : Codewords) (mk : Mask) : Matrix :=
  place_data (stamped cw mk) cw

/-- The last element of a mask list, defaulting to the start mask: the mask
the loop matrix carries after the candidate fold. -/
def lastMask : List Mask → Mask → Mask
  | [], a => a
  | mk :: t, _ => lastMask t mk

/-- The off-format lockstep relation between two builder grids of width w:
equal length, equal cells outside the format positions, and both non-Unset
at every format position. -/
def offFmtRel (w : Nat) (va vb : List Module) : Prop :=
  va.length = vb.length ∧
  ∀ k, (k ∈ formatIdx w → va.getD k Module.Unset ≠ Module.Unset
          ∧ vb.getD k Module.Unset ≠ Module.Unset)
     ∧ (k ∉ formatIdx w → va.getD k Module.Unset = vb.getD k Module.Unset)

/-- The per-version well-formedness of the alignment coordinate vector: the
first coordinate is 6, the last is width - 7, and every middle coordinate
lies between 13 and width - 13 (with every coordinate between 6 and
width - 7). -/
@[reducible] def alignOK (v : Nat) : Prop :=
  (alignCoords v (v * 4 + 17)).getD 0 0 = 6
  ∧ (alignCoords v (v * 4 + 17)).getD (v / 7 + 2 - 1) 0 = v * 4 + 17 - 7
  ∧ (∀ t, t < v / 7 + 2 - 1 →
      t = 0 ∨ (13 ≤ (alignCoords v (v * 4 + 17)).getD t 0
        ∧ (alignCoords v (v * 4 + 17)).getD t 0 ≤ v * 4 + 17 - 13))
  ∧ (∀ t, t < v / 7 + 2 →
      6 ≤ (alignCoords v (v * 4 + 17)).getD t 0
      ∧ (alignCoords v (v * 4 + 17)).getD t 0 ≤ v * 4 + 17 - 7)

/-- The penalty the claim describes for the dark-module proportion: 10 points
per whole 5 percent step by which the dark percentage of the grid deviates
from 50 percent. -/
def specDarkPenalty (dark area : Nat) : Nat :=
  10 * (Nat.dist (dark * 100 / area) 50 / 5)

/-- The streak penalty the claim describes for one line, given as the list of
color bits: every maximal run of length n at least 5 scores 3 + (n - 5). -/
def specRunScore : Nat → Nat → List Nat → Nat
  | _, len, [] => if len ≥ 5 then 3 + (len - 5) else 0
  | v, len, c :: t =>
      if c = v then specRunScore v (len + 1) t
      else (if len ≥ 5 then 3 + (len - 5) else 0) + specRunScore c 1 t

def specLineRunScore : List Nat → Nat
  | [] => 0
  | c :: t => specRunScore c 1 t

/-- A 2 x 2 matrix with exactly half of its modules DataON: the grid of the
C3 counterexample. -/
def c3Mat : Matrix :=
  { value := [Module.DataON, Module.DataON, Module.DataOFF, Module.DataOFF],
    width := 2, version := 1, ecl := ECL.Low, mask := Mask.M0 }

/-- A 6 x 6 matrix whose first line is dark, light, light, light, light,
light (a maximal run of exactly 5 starting right after a color change) and
whose remaining lines alternate colors: the grid of the C4 counterexample. -/
def c4Mat : Matrix :=
  { value :=
      [Module.DataON, Module.DataOFF, Module.DataOFF, Module.DataOFF, Module.DataOFF, Module.DataOFF,
       Module.DataOFF, Module.DataON, Module.DataOFF, Module.DataON, Module.DataOFF, Module.DataON,
       Module.DataON, Module.DataOFF, Module.DataON, Module.DataOFF, Module.DataON, Module.DataOFF,
       Module.DataOFF, Module.DataON, Module.DataOFF, Module.DataON, Module.DataOFF, Module.DataON,
       Module.DataON, Module.DataOFF, Module.DataON, Module.DataOFF, Module.DataON, Module.DataOFF,
       Module.DataOFF, Module.DataON, Module.DataOFF, Module.DataON, Module.DataOFF, Module.DataON],
    width := 6, version := 1, ecl := ECL.Low, mask := Mask.M0 }

/- ==================== theorems ==================== -/

theorem bitsOfNat_length (n v : Nat) : (bitsOfNat n v).length = n := by
  induction n generalizing v with
  | zero => rfl
  | succ n ih => simp [bitsOfNat, ih]

theorem natOfBits_append_bit (l : List Bool) (b : Bool) :
    natOfBits (l ++ [b]) = 2 * natOfBits l + (if b then 1 else 0) := by
  simp [natOfBits, List.foldl_append]

theorem natOfBits_bitsOfNat (n v : Nat) (h : v < 2 ^ n) :
    natOfBits (bitsOfNat n v) = v := by
  induction n generalizing v with
  | zero =>
    simp only [pow_zero, Nat.lt_one_iff] at h
    simp [bitsOfNat, natOfBits, h]
  | succ n ih =>
    have h1 : v >>> 1 = v / 2 := by
      simpa using Nat.shiftRight_eq_div_pow v 1
    have h2 : v &&& 1 = v % 2 := Nat.and_one_is_mod v
    have hlt : v >>> 1 < 2 ^ n := by
      rw [h1]
      have hv : v < 2 ^ n * 2 := by rw [← pow_succ]; exact h
      exact Nat.div_lt_of_lt_mul (by omega)
    rw [bitsOfNat, natOfBits_append_bit, ih _ hlt, h1, h2]
    rcases Nat.mod_two_eq_zero_or_one v with h3 | h3 <;> simp [h3] <;> omega

theorem push_bits_bits (d : Data) (v n : Nat) :
    (push_bits d v n).bits = d.bits ++ bitsOfNat n v := rfl

theorem push_bits_version (d : Data) (v n : Nat) :
    (push_bits d v n).version = d.version := rfl

theorem push_bits_len (d : Data) (v n : Nat) :
    (push_bits d v n).bits.length = d.bits.length + n := by
  simp [push_bits, bitsOfNat_length]

theorem numGroups_bits (d : Data) (l : List Nat) :
    (numGroups d l).bits = d.bits ++ specNumPayload l := by
  induction d, l using numGroups.induct with
  | case1 d a b c t ih =>
    simp only [numGroups] at ih ⊢
    rw [ih]
    simp [push_bits, specNumPayload, List.append_assoc]
  | case2 d a b => simp [numGroups, push_bits, specNumPayload]
  | case3 d a => simp [numGroups, push_bits, specNumPayload]
  | case4 d => simp [numGroups, specNumPayload]

theorem alphaDomain_maps (c : Nat) (hc : c ∈ alphaDomain) :
    ascii_to_b45 c = some (b45v c) ∧ b45v c < 45 ∧ b45inv (b45v c) = c := by
  have key : ∀ c' ∈ alphaDomain,
      ascii_to_b45 c' = some (b45v c') ∧ b45v c' < 45 ∧ b45inv (b45v c') = c' := by decide
  exact key c hc

theorem alphaGroups_ok (input : List Nat) (d : Data)
    (h : ∀ c ∈ input, c ∈ alphaDomain) :
    alphaGroups d input
      = EncodeResult.ok { version := d.version, bits := d.bits ++ specAlphaPayload input } := by
  induction input using specAlphaPayload.induct generalizing d with
  | case1 a b t ih =>
    obtain ⟨ha, -, -⟩ := alphaDomain_maps a (h a (by simp))
    obtain ⟨hb, -, -⟩ := alphaDomain_maps b (h b (by simp))
    have step : alphaGroups d (a :: b :: t)
        = alphaGroups (push_bits d (b45v a * 45 + b45v b) 11) t := by
      rw [alphaGroups, ha, hb]
    rw [step, ih _ (fun c hc => h c (by simp [hc]))]
    simp [push_bits, specAlphaPayload, List.append_assoc]
  | case2 a =>
    obtain ⟨ha, -, -⟩ := alphaDomain_maps a (h a (by simp))
    have step : alphaGroups d [a] = EncodeResult.ok (push_bits d (b45v a) 6) := by
      rw [alphaGroups, ha]
    rw [step]
    rfl
  | case3 =>
    simp [alphaGroups, specAlphaPayload]

theorem decode_specAlphaPayload (input : List Nat)
    (h : ∀ c ∈ input, c ∈ alphaDomain) :
    decodeAlpha input.length (specAlphaPayload input) = input := by
  induction input using specAlphaPayload.induct with
  | case1 a b t ih =>
    obtain ⟨-, halt, hainv⟩ := alphaDomain_maps a (h a (by simp))
    obtain ⟨-, hblt, hbinv⟩ := alphaDomain_maps b (h b (by simp))
    have hg : b45v a * 45 + b45v b < 2 ^ 11 := by omega
    have htake : (bitsOfNat 11 (b45v a * 45 + b45v b) ++ specAlphaPayload t).take 11
        = bitsOfNat 11 (b45v a * 45 + b45v b) := by
      rw [← bitsOfNat_length 11 (b45v a * 45 + b45v b)]
      exact List.take_left _ _
    have hdrop : (bitsOfNat 11 (b45v a * 45 + b45v b) ++ specAlphaPayload t).drop 11
        = specAlphaPayload t := by
      rw [← bitsOfNat_length 11 (b45v a * 45 + b45v b)]
      exact List.drop_left _ _
    have hlen : (a :: b :: t).length = t.length + 2 := by simp
    rw [specAlphaPayload, hlen, decodeAlpha]
    simp only [htake, hdrop, natOfBits_bitsOfNat _ _ hg]
    have hdiv : (b45v a * 45 + b45v b) / 45 = b45v a := by
      rw [Nat.mul_comm (b45v a) 45, Nat.mul_add_div (by omega)]
      omega
    have hmod : (b45v a * 45 + b45v b) % 45 = b45v b := by
      rw [Nat.mul_comm (b45v a) 45, Nat.mul_add_mod]
      exact Nat.mod_eq_of_lt hblt
    rw [hdiv, hmod, hainv, hbinv, ih (fun c hc => h c (by simp [hc]))]
  | case2 a =>
    obtain ⟨-, halt, hainv⟩ := alphaDomain_maps a (h a (by simp))
    have htake : (bitsOfNat 6 (b45v a)).take 6 = bitsOfNat 6 (b45v a) := by
      rw [← bitsOfNat_length 6 (b45v a)]
      exact List.take_length _
    rw [specAlphaPayload]
    show decodeAlpha 1 _ = [a]
    rw [decodeAlpha, htake, natOfBits_bitsOfNat _ _ (by omega), hainv]
  | case3 => rfl

/-- Claim C7: the 45-symbol alphanumeric mapping is a bijection from its
45-character domain onto 0..44 (the image list is exactly some 0, ..,
some 44 and the domain has 45 distinct members), and for every valid
alphanumeric input the encoder succeeds and decoding its payload through
the inverse mapping reproduces the input exactly. -/
theorem c7_alphanumeric_bijection_roundtrip (v : Nat) (input : List Nat)
    (h : ∀ c ∈ input, c ∈ alphaDomain) :
    (alphaDomain.map ascii_to_b45 = (List.range 45).map some
     ∧ alphaDomain.Nodup ∧ alphaDomain.length = 45)
    ∧ ∃ d, encode_alphanumeric ⟨v, []⟩ input = EncodeResult.ok d
        ∧ decodeAlpha input.length
            (d.bits.drop (4 + bits_char_count_indicator v Mode.Alphanumeric)) = input := by
  refine ⟨⟨by decide, by decide, by decide⟩, ?_⟩
  have hd0 : encode_alphanumeric ⟨v, []⟩ input
      = alphaGroups
          ⟨v, bitsOfNat 4 2 ++ bitsOfNat (bits_char_count_indicator v Mode.Alphanumeric) input.length⟩
          input := rfl
  rw [hd0, alphaGroups_ok input _ h]
  refine ⟨_, rfl, ?_⟩
  have hlen : (bitsOfNat 4 2
      ++ bitsOfNat (bits_char_count_indicator v Mode.Alphanumeric) input.length).length
      = 4 + bits_char_count_indicator v Mode.Alphanumeric := by
    simp [bitsOfNat_length]
  have hdrop : ((bitsOfNat 4 2
      ++ bitsOfNat (bits_char_count_indicator v Mode.Alphanumeric) input.length)
      ++ specAlphaPayload input).drop (4 + bits_char_count_indicator v Mode.Alphanumeric)
      = specAlphaPayload input := by
    rw [← hlen]
    exact List.drop_left _ _
  show decodeAlpha input.length (((bitsOfNat 4 2
      ++ bitsOfNat (bits_char_count_indicator v Mode.Alphanumeric) input.length)
      ++ specAlphaPayload input).drop (4 + bits_char_count_indicator v Mode.Alphanumeric)) = input
  rw [hdrop]
  exact decode_specAlphaPayload input h

/-- Witness for claim C7 at version 1 on the byte string ABC1::4. -/
theorem c7_alphanumeric_bijection_roundtrip_witness :
    (∀ c ∈ ([65, 66, 67, 49, 58, 58, 52] : List Nat), c ∈ alphaDomain)
    ∧ ((alphaDomain.map ascii_to_b45 = (List.range 45).map some
        ∧ alphaDomain.Nodup ∧ alphaDomain.length = 45)
       ∧ ∃ d, encode_alphanumeric ⟨1, []⟩ [65, 66, 67, 49, 58, 58, 52] = EncodeResult.ok d
           ∧ decodeAlpha ([65, 66, 67, 49, 58, 58, 52] : List Nat).length
               (d.bits.drop (4 + bits_char_count_indicator 1 Mode.Alphanumeric))
             = [65, 66, 67, 49, 58, 58, 52]) :=
  ⟨by decide, c7_alphanumeric_bijection_roundtrip 1 [65, 66, 67, 49, 58, 58, 52] (by decide)⟩

/-- Claim C5 counterexample: the invalid character code 33 passed to the
alphanumeric encoder is only detected inside the character mapping, after
the 4-bit mode indicator and the 9-bit character-count indicator were
already pushed (13 bits), and it surfaces as a panic (unreachable in the
source), not as a recoverable error value. -/
theorem c5_invalid_char_counterexample :
    encode_alphanumeric ⟨1, []⟩ [33]
      = EncodeResult.panicked ⟨1, bitsOfNat 4 2 ++ bitsOfNat 9 1⟩
    ∧ (bitsOfNat 4 2 ++ bitsOfNat 9 1).length = 13 :=
  ⟨rfl, rfl⟩

theorem alphaGroups_panicked (input : List Nat) :
    ∀ d : Data, (∃ c ∈ input, ascii_to_b45 c = none) →
      ∃ dp, alphaGroups d input = EncodeResult.panicked dp
        ∧ d.bits.length ≤ dp.bits.length := by
  induction input using specAlphaPayload.induct with
  | case1 a b t ih =>
    intro d h
    rcases h with ⟨c, hc, hcnone⟩
    cases ha : ascii_to_b45 a with
    | none =>
      refine ⟨d, ?_, le_refl _⟩
      cases hb : ascii_to_b45 b <;> rw [alphaGroups, ha, hb]
    | some x =>
      cases hb : ascii_to_b45 b with
      | none =>
        refine ⟨d, ?_, le_refl _⟩
        rw [alphaGroups, ha, hb]
      | some y =>
        have hct : c ∈ t := by
          simp only [List.mem_cons] at hc
          rcases hc with rfl | rfl | hct
          · rw [ha] at hcnone; exact absurd hcnone (by simp)
          · rw [hb] at hcnone; exact absurd hcnone (by simp)
          · exact hct
        have step : alphaGroups d (a :: b :: t)
            = alphaGroups (push_bits d (x * 45 + y) 11) t := by
          rw [alphaGroups, ha, hb]
        obtain ⟨dp, heq, hlen⟩ := ih (push_bits d (x * 45 + y) 11) ⟨c, hct, hcnone⟩
        refine ⟨dp, by rw [step, heq], ?_⟩
        have := push_bits_len d (x * 45 + y) 11
        omega
  | case2 a =>
    intro d h
    rcases h with ⟨c, hc, hcnone⟩
    simp only [List.mem_singleton] at hc
    subst hc
    refine ⟨d, ?_, le_refl _⟩
    rw [alphaGroups, hcnone]
  | case3 =>
    intro d h
    rcases h with ⟨c, hc, -⟩
    simp at hc

/-- Claim C5, amended: an input character on which the 45-symbol mapping is
undefined makes encode_alphanumeric panic (modelled as the panicked result)
rather than return a recoverable error, and the panic is raised only after
the 4-bit mode indicator and the character-count indicator have already
been written to the bit stream. -/
theorem c5_invalid_char_panics_after_header (v : Nat) (input : List Nat)
    (h : ∃ c ∈ input, ascii_to_b45 c = none) :
    ∃ d, encode_alphanumeric ⟨v, []⟩ input = EncodeResult.panicked d
      ∧ 4 + bits_char_count_indicator v Mode.Alphanumeric ≤ d.bits.length := by
  obtain ⟨dp, heq, hlen⟩ := alphaGroups_panicked input
      ⟨v, bitsOfNat 4 2
          ++ bitsOfNat (bits_char_count_indicator v Mode.Alphanumeric) input.length⟩ h
  refine ⟨dp, heq, ?_⟩
  have hd0 : (⟨v, bitsOfNat 4 2
      ++ bitsOfNat (bits_char_count_indicator v Mode.Alphanumeric) input.length⟩
        : Data).bits.length
      = 4 + bits_char_count_indicator v Mode.Alphanumeric := by
    simp [bitsOfNat_length]
  omega

/-- Witness for the amended claim C5 at version 1, input the single
character code 33. -/
theorem c5_invalid_char_panics_after_header_witness :
    (∃ c ∈ ([33] : List Nat), ascii_to_b45 c = none)
    ∧ ∃ d, encode_alphanumeric ⟨1, []⟩ [33] = EncodeResult.panicked d
        ∧ 4 + bits_char_count_indicator 1 Mode.Alphanumeric ≤ d.bits.length :=
  ⟨by decide, c5_invalid_char_panics_after_header 1 [33] (by decide)⟩

/-- Claim C6: encode_numeric emits the 4-bit mode indicator 0001, the
character count in the version-dependent width, then 3-digit groups in 10
bits, a trailing 2-digit group in 7 bits, a trailing digit in 4 bits; and
at version 1 the inputs 1, 99 and 123456 produce exactly the claimed bit
sequences. -/
theorem c6_encode_numeric_bits (v : Nat) (input : List Nat)
    (h : ∀ c ∈ input, 48 ≤ c ∧ c ≤ 57) :
    (encode_numeric ⟨v, []⟩ input).bits
      = bitsOfNat 4 1
        ++ bitsOfNat (bits_char_count_indicator v Mode.Numeric) input.length
        ++ specNumPayload input
    ∧ (encode_numeric ⟨1, []⟩ [49]).bits
      = [false, false, false, true,
         false, false, false, false, false, false, false, false, false, true,
         false, false, false, true]
    ∧ (encode_numeric ⟨1, []⟩ [57, 57]).bits
      = [false, false, false, true,
         false, false, false, false, false, false, false, false, true, false,
         true, true, false, false, false, true, true]
    ∧ (encode_numeric ⟨1, []⟩ [49, 50, 51, 52, 53, 54]).bits
      = [false, false, false, true,
         false, false, false, false, false, false, false, true, true, false,
         false, false, false, true, true, true, true, false, true, true,
         false, true, true, true, false, false, true, false, false, false] := by
  refine ⟨?_, by decide, by decide, by decide⟩
  have hd0 : encode_numeric ⟨v, []⟩ input
      = numGroups ⟨v, bitsOfNat 4 1
          ++ bitsOfNat (bits_char_count_indicator v Mode.Numeric) input.length⟩ input := rfl
  rw [hd0, numGroups_bits, List.append_assoc]

/-- Witness for claim C6 at version 1 on the single digit 1. -/
theorem c6_encode_numeric_bits_witness :
    (∀ c ∈ ([49] : List Nat), 48 ≤ c ∧ c ≤ 57)
    ∧ ((encode_numeric ⟨1, []⟩ [49]).bits
        = bitsOfNat 4 1
          ++ bitsOfNat (bits_char_count_indicator 1 Mode.Numeric) ([49] : List Nat).length
          ++ specNumPayload [49]
       ∧ (encode_numeric ⟨1, []⟩ [49]).bits
        = [false, false, false, true,
           false, false, false, false, false, false, false, false, false, true,
           false, false, false, true]
       ∧ (encode_numeric ⟨1, []⟩ [57, 57]).bits
        = [false, false, false, true,
           false, false, false, false, false, false, false, false, true, false,
           true, true, false, false, false, true, true]
       ∧ (encode_numeric ⟨1, []⟩ [49, 50, 51, 52, 53, 54]).bits
        = [false, false, false, true,
           false, false, false, false, false, false, false, true, true, false,
           false, false, false, true, true, true, true, false, true, true,
           false, true, true, true, false, false, true, false, false, false]) :=
  ⟨by decide, c6_encode_numeric_bits 1 [49] (by decide)⟩

/-- Claim C3 failing input: on a grid whose dark proportion is exactly 50
percent the claim (and the QR standard) assigns penalty 0, but
dark_proportion as written divides dark * 20 by 20 * width * width, so the
computed percent is 0 and the swap-then-subtract step yields the constant
penalty 100. -/
theorem c3_dark_proportion_diverges :
    dark_proportion c3Mat = 100 ∧ specDarkPenalty 2 4 = 0 :=
  ⟨rfl, rfl⟩

/-- Claim C4 failing input: the first line of c4Mat contains a maximal run of
exactly 5 same-color modules beginning right after a color change, so the
claim awards 3 points, but line_patterns resets streak to 0 instead of 1 on
a color change and scores 0 over the whole matrix in both scan
directions. -/
theorem c4_line_patterns_diverges :
    line_patterns c4Mat true + line_patterns c4Mat false = 0
    ∧ specLineRunScore
        ((List.range 6).map (fun j => (c4Mat.value.getD j Module.Unset).toU8 &&& 1)) = 3 := by
  constructor
  · rfl
  · rfl

/-- Claim C8: for every version 1-40, VERSION_INFO version equals
(version << 12) OR-ed with the remainder of (version << 12) modulo the
generator polynomial 0b1111100100101 under binary polynomial XOR-shift
division, and in particular the entries for versions 7, 21 and 40 are
0x07C94, 0x15683 and 0x28C69. -/
theorem c8_version_info_table (v : Nat) (h1 : 1 ≤ v) (h2 : v ≤ 40) :
    VERSION_INFO v = (v <<< 12) ||| specPolyMod 0b1111100100101 32 (v <<< 12)
    ∧ VERSION_INFO 7 = 0x07C94
    ∧ VERSION_INFO 21 = 0x15683
    ∧ VERSION_INFO 40 = 0x28C69 := by
  have key : ∀ v' : Nat, v' < 41 → 1 ≤ v' →
      VERSION_INFO v' = (v' <<< 12) ||| specPolyMod 0b1111100100101 32 (v' <<< 12) := by
    decide
  exact ⟨key v (by omega) h1, by decide, by decide, by decide⟩

/-- Witness for claim C8 at version 7. -/
theorem c8_version_info_table_witness :
    (1 ≤ 7 ∧ 7 ≤ 40)
    ∧ (VERSION_INFO 7 = (7 <<< 12) ||| specPolyMod 0b1111100100101 32 (7 <<< 12)
       ∧ VERSION_INFO 7 = 0x07C94
       ∧ VERSION_INFO 21 = 0x15683
       ∧ VERSION_INFO 40 = 0x28C69) :=
  ⟨⟨by decide, by decide⟩, c8_version_info_table 7 (by decide) (by decide)⟩

theorem mapCells_length (f : Nat → Module → Module) (k : Nat) (l : List Module) :
    (mapCells f k l).length = l.length := by
  induction l generalizing k with
  | nil => rfl
  | cons mo rest ih => simp [mapCells, ih]

theorem mapCells_getD (f : Nat → Module → Module) (k : Nat) (l : List Module) (n : Nat)
    (d : Module) (h : n < l.length) :
    (mapCells f k l).getD n d = f (k + n) (l.getD n d) := by
  induction l generalizing k n with
  | nil => simp at h
  | cons mo rest ih =>
    cases n with
    | zero => simp [mapCells]
    | succ n =>
      simp only [mapCells, List.getD_cons_succ]
      rw [ih (k + 1) n (by simpa using h)]
      congr 1
      omega

theorem mapCells_mapCells (f g : Nat → Module → Module) (k : Nat) (l : List Module) :
    mapCells f k (mapCells g k l) = mapCells (fun i x => f i (g i x)) k l := by
  induction l generalizing k with
  | nil => rfl
  | cons mo rest ih => simp [mapCells, ih]

theorem mapCells_id (k : Nat) (l : List Module) : mapCells (fun _ x => x) k l = l := by
  induction l generalizing k with
  | nil => rfl
  | cons mo rest ih => simp [mapCells, ih]

theorem maskCell_involutive (mask : Mask) (w idx : Nat) (mo : Module) :
    maskCell mask w idx (maskCell mask w idx mo) = mo := by
  cases mo <;> cases hb : mask_bit mask (idx / w) (idx % w) <;>
    simp [maskCell, Module.toU8, hb]

theorem apply_mask_involutive (m : Matrix) : apply_mask (apply_mask m) = m := by
  cases m with
  | mk value width version ecl mask =>
    simp [apply_mask, mapCells_mapCells, maskCell_involutive, mapCells_id]

/-- Claim C10: apply_mask leaves every non-data module unchanged, flips a
data module between DataON and DataOFF exactly when the mask predicate
holds at its (row, column) = (index / width, index mod width), and applying
it twice with the same mask restores the matrix. -/
theorem c10_apply_mask_frame (m : Matrix) (k : Nat) (h : k < m.value.length) :
    ((m.value.getD k Module.Unset ≠ Module.DataON
        ∧ m.value.getD k Module.Unset ≠ Module.DataOFF) →
      (apply_mask m).value.getD k Module.Unset = m.value.getD k Module.Unset)
    ∧ ((m.value.getD k Module.Unset = Module.DataON
        ∨ m.value.getD k Module.Unset = Module.DataOFF) →
      (apply_mask m).value.getD k Module.Unset
        = (if mask_bit m.mask (k / m.width) (k % m.width)
           then (if m.value.getD k Module.Unset = Module.DataON
                 then Module.DataOFF else Module.DataON)
           else m.value.getD k Module.Unset))
    ∧ apply_mask (apply_mask m) = m := by
  have hg : (apply_mask m).value.getD k Module.Unset
      = maskCell m.mask m.width k (m.value.getD k Module.Unset) := by
    have hmc := mapCells_getD (maskCell m.mask m.width) 0 m.value k Module.Unset h
    simpa [apply_mask] using hmc
  refine ⟨?_, ?_, apply_mask_involutive m⟩
  · intro hnd
    rw [hg]
    rcases hmo : m.value.getD k Module.Unset <;> rw [hmo] at hnd <;>
      first
        | exact absurd rfl hnd.1
        | exact absurd rfl hnd.2
        | rfl
  · intro hd
    rw [hg]
    rcases hd with hmo | hmo <;> rw [hmo] <;>
      cases hb : mask_bit m.mask (k / m.width) (k % m.width) <;>
        simp [maskCell, Module.toU8, hb]

/-- Witness for claim C10 on the 2 x 2 matrix c3Mat at index 0. -/
theorem c10_apply_mask_frame_witness :
    (0 < c3Mat.value.length)
    ∧ (((c3Mat.value.getD 0 Module.Unset ≠ Module.DataON
          ∧ c3Mat.value.getD 0 Module.Unset ≠ Module.DataOFF) →
        (apply_mask c3Mat).value.getD 0 Module.Unset = c3Mat.value.getD 0 Module.Unset)
       ∧ ((c3Mat.value.getD 0 Module.Unset = Module.DataON
          ∨ c3Mat.value.getD 0 Module.Unset = Module.DataOFF) →
        (apply_mask c3Mat).value.getD 0 Module.Unset
          = (if mask_bit c3Mat.mask (0 / c3Mat.width) (0 % c3Mat.width)
             then (if c3Mat.value.getD 0 Module.Unset = Module.DataON
                   then Module.DataOFF else Module.DataON)
             else c3Mat.value.getD 0 Module.Unset))
       ∧ apply_mask (apply_mask c3Mat) = c3Mat) :=
  ⟨by decide, c10_apply_mask_frame c3Mat 0 (by decide)⟩

/-- Claim C9: for every ECL and mask, FORMAT_INFO equals the 5-bit word
(ecl bits << 3 | mask index) shifted left 10, OR-ed with its remainder
modulo generator 0b10100110111 under binary polynomial division, XOR-ed
with 0b101010000010010; the ECL bit mapping is Low 1, Medium 0, Quartile 3,
High 2; and the (Medium, M0), (High, M0), (High, M7) entries are 0x5412,
0x1689 and 0x083B. -/
theorem c9_format_info_table (e : ECL) (mk : Mask) :
    FORMAT_INFO e mk =
      ((((eclValue e <<< 3) ||| mk.toNat) <<< 10)
        ||| specPolyMod 0b10100110111 32 (((eclValue e <<< 3) ||| mk.toNat) <<< 10))
      ^^^ 0b101010000010010
    ∧ (eclValue ECL.Low = 1 ∧ eclValue ECL.Medium = 0
       ∧ eclValue ECL.Quartile = 3 ∧ eclValue ECL.High = 2)
    ∧ FORMAT_INFO ECL.Medium Mask.M0 = 0x5412
    ∧ FORMAT_INFO ECL.High Mask.M0 = 0x1689
    ∧ FORMAT_INFO ECL.High Mask.M7 = 0x083B := by
  refine ⟨?_, by decide, by decide, by decide, by decide⟩
  cases e <;> cases mk <;> decide

theorem getD_set_self (l : List Module) (i : Nat) (a d : Module) (h : i < l.length) :
    (l.set i a).getD i d = a := by
  simp [List.getD_eq_getElem?_getD, List.getElem?_set_self h]

theorem getD_set_ne (l : List Module) (i j : Nat) (a d : Module) (h : i ≠ j) :
    (l.set i a).getD j d = l.getD j d := by
  simp [List.getD_eq_getElem?_getD, List.getElem?_set, h]

theorem getD_oob (l : List Module) (k : Nat) (d : Module) (h : l.length ≤ k) :
    l.getD k d = d := by
  rw [List.getD_eq_getElem?_getD, List.getElem?_eq_none (by omega)]
  rfl

theorem getD_set_self_oob (l : List Module) (i : Nat) (a d : Module) (h : l.length ≤ i) :
    (l.set i a).getD i d = d := by
  apply getD_oob
  simpa using h

theorem list_eq_of_getD (v v' : List Module) (hl : v.length = v'.length)
    (h : ∀ k, v.getD k Module.Unset = v'.getD k Module.Unset) : v = v' := by
  apply List.ext_getElem hl
  intro n h1 h2
  have hk := h n
  rw [List.getD_eq_getElem?_getD, List.getD_eq_getElem?_getD,
    List.getElem?_eq_getElem h1, List.getElem?_eq_getElem h2] at hk
  simpa using hk

theorem setAll_cons (m : Matrix) (e : Nat × Nat × Module) (t : List (Nat × Nat × Module)) :
    setAll m (e :: t) = setAll (m.set e.1 e.2.1 e.2.2) t := rfl

theorem setAll_shape (m : Matrix) (L : List (Nat × Nat × Module)) :
    (setAll m L).width = m.width ∧ (setAll m L).version = m.version
    ∧ (setAll m L).ecl = m.ecl ∧ (setAll m L).mask = m.mask
    ∧ (setAll m L).value.length = m.value.length := by
  induction L generalizing m with
  | nil => exact ⟨rfl, rfl, rfl, rfl, rfl⟩
  | cons e t ih =>
    obtain ⟨h1, h2, h3, h4, h5⟩ := ih (m.set e.1 e.2.1 e.2.2)
    exact ⟨h1, h2, h3, h4, h5.trans (by simp [Matrix.set])⟩

theorem setAll_getD_untargeted (m : Matrix) (L : List (Nat × Nat × Module)) (k : Nat)
    (d : Module) (h : ∀ e ∈ L, entryIdx m.width e ≠ k) :
    (setAll m L).value.getD k d = m.value.getD k d := by
  induction L generalizing m with
  | nil => rfl
  | cons e t ih =>
    rw [setAll_cons, ih (m.set e.1 e.2.1 e.2.2) (fun e' he' => h e' (by simp [he']))]
    exact getD_set_ne _ _ _ _ _ (h e (by simp))

theorem setAll_getD_congr (m m' : Matrix) (L : List (Nat × Nat × Module)) (k : Nat)
    (hw : m.width = m'.width) (hlen : m.value.length = m'.value.length)
    (h : m.value.getD k Module.Unset = m'.value.getD k Module.Unset) :
    (setAll m L).value.getD k Module.Unset = (setAll m' L).value.getD k Module.Unset := by
  induction L generalizing m m' with
  | nil => exact h
  | cons e t ih =>
    rw [setAll_cons, setAll_cons]
    apply ih
    · simp [Matrix.set, hw]
    · simp [Matrix.set, hlen]
    · show (m.value.set (e.1 * m.width + e.2.1) e.2.2).getD k Module.Unset
        = (m'.value.set (e.1 * m'.width + e.2.1) e.2.2).getD k Module.Unset
      rw [← hw]
      by_cases hk : e.1 * m.width + e.2.1 = k
      · subst hk
        by_cases hin : e.1 * m.width + e.2.1 < m.value.length
        · rw [getD_set_self _ _ _ _ hin, getD_set_self _ _ _ _ (by omega)]
        · rw [getD_set_self_oob _ _ _ _ (by omega), getD_set_self_oob _ _ _ _ (by omega)]
      · rw [getD_set_ne _ _ _ _ _ hk, getD_set_ne _ _ _ _ _ hk]
        exact h

theorem setAll_getD_targeted (m m' : Matrix) (L : List (Nat × Nat × Module)) (k : Nat)
    (hw : m.width = m'.width) (hlen : m.value.length = m'.value.length)
    (htgt : ∃ e ∈ L, entryIdx m.width e = k) :
    (setAll m L).value.getD k Module.Unset = (setAll m' L).value.getD k Module.Unset := by
  induction L generalizing m m' with
  | nil =>
    rcases htgt with ⟨e, he, -⟩
    simp at he
  | cons e t ih =>
    rw [setAll_cons, setAll_cons]
    by_cases ht : ∃ e' ∈ t, entryIdx m.width e' = k
    · exact ih (m.set e.1 e.2.1 e.2.2) (m'.set e.1 e.2.1 e.2.2)
        (by simp [Matrix.set, hw]) (by simp [Matrix.set, hlen]) ht
    · rcases htgt with ⟨e0, he0, hke⟩
      have he0e : e0 = e := by
        rcases List.mem_cons.mp he0 with h0 | h0
        · exact h0
        · exact absurd ⟨e0, h0, hke⟩ ht
      subst he0e
      apply setAll_getD_congr _ _ _ _ (by simp [Matrix.set, hw]) (by simp [Matrix.set, hlen])
      show (m.value.set (e0.1 * m.width + e0.2.1) e0.2.2).getD k Module.Unset
        = (m'.value.set (e0.1 * m'.width + e0.2.1) e0.2.2).getD k Module.Unset
      rw [← hw]
      unfold entryIdx at hke
      rw [hke]
      by_cases hin : k < m.value.length
      · rw [getD_set_self _ _ _ _ hin, getD_set_self _ _ _ _ (by omega)]
      · rw [getD_set_self_oob _ _ _ _ (by omega), getD_set_self_oob _ _ _ _ (by omega)]

theorem noUnsetAt_set (v : List Module) (i : Nat) (a : Module) (k : Nat)
    (ha : a ≠ Module.Unset) (h : noUnsetAt v k) : noUnsetAt (v.set i a) k := by
  unfold noUnsetAt at *
  by_cases hik : i = k
  · subst hik
    by_cases hin : i < v.length
    · rw [getD_set_self _ _ _ _ hin]; exact ha
    · exact absurd (getD_oob v i Module.Unset (by omega)) h
  · rw [getD_set_ne _ _ _ _ _ hik]; exact h

theorem noUnsetAt_set_self (v : List Module) (i : Nat) (a : Module)
    (ha : a ≠ Module.Unset) (h : i < v.length) : noUnsetAt (v.set i a) i := by
  unfold noUnsetAt
  rw [getD_set_self _ _ _ _ h]
  exact ha

theorem setAll_noUnsetAt_preserve (m : Matrix) (L : List (Nat × Nat × Module)) (k : Nat)
    (hmods : ∀ e ∈ L, e.2.2 ≠ Module.Unset) (h : noUnsetAt m.value k) :
    noUnsetAt (setAll m L).value k := by
  induction L generalizing m with
  | nil => exact h
  | cons e t ih =>
    rw [setAll_cons]
    exact ih (m.set e.1 e.2.1 e.2.2) (fun e' he' => hmods e' (by simp [he']))
      (noUnsetAt_set _ _ _ _ (hmods e (by simp)) h)

theorem setAll_noUnsetAt_target (m : Matrix) (L : List (Nat × Nat × Module)) (k : Nat)
    (hmods : ∀ e ∈ L, e.2.2 ≠ Module.Unset) (htgt : ∃ e ∈ L, entryIdx m.width e = k)
    (hk : k < m.value.length) : noUnsetAt (setAll m L).value k := by
  induction L generalizing m with
  | nil =>
    rcases htgt with ⟨e, he, -⟩
    simp at he
  | cons e t ih =>
    rw [setAll_cons]
    by_cases ht : ∃ e' ∈ t, entryIdx m.width e' = k
    · exact ih (m.set e.1 e.2.1 e.2.2) (fun e' he' => hmods e' (by simp [he'])) ht
        (by simpa [Matrix.set] using hk)
    · rcases htgt with ⟨e0, he0, hke⟩
      have he0e : e0 = e := by
        rcases List.mem_cons.mp he0 with h0 | h0
        · exact h0
        · exact absurd ⟨e0, h0, hke⟩ ht
      subst he0e
      apply setAll_noUnsetAt_preserve _ _ _ (fun e' he' => hmods e' (by simp [he']))
      unfold entryIdx at hke
      show noUnsetAt (m.value.set (e0.1 * m.width + e0.2.1) e0.2.2) k
      rw [hke]
      exact noUnsetAt_set_self _ _ _ (hmods e0 (by simp)) hk

theorem lastWrite_isSome (w k : Nat) (L : List (Nat × Nat × Module)) :
    (lastWrite w k L).isSome ↔ ∃ e ∈ L, entryIdx w e = k := by
  induction L with
  | nil => simp [lastWrite]
  | cons e t ih =>
    rw [lastWrite]
    cases hlt : lastWrite w k t with
    | some mo =>
      simp only [Option.isSome_some, true_iff]
      have := ih.mp (by rw [hlt]; rfl)
      rcases this with ⟨e', he', hk'⟩
      exact ⟨e', by simp [he'], hk'⟩
    | none =>
      by_cases hke : entryIdx w e = k
      · simp [hke]
      · simp only [hke, if_false]
        constructor
        · intro hs; simp at hs
        · intro ⟨e', he', hk'⟩
          rcases List.mem_cons.mp he' with h0 | h0
          · subst h0; exact absurd hk' hke
          · have : (lastWrite w k t).isSome := ih.mpr ⟨e', h0, hk'⟩
            rw [hlt] at this
            simp at this

theorem setAll_getD_lastWrite (m : Matrix) (L : List (Nat × Nat × Module)) (k : Nat)
    (mo : Module) (hk : k < m.value.length) (hlw : lastWrite m.width k L = some mo) :
    (setAll m L).value.getD k Module.Unset = mo := by
  induction L generalizing m with
  | nil => simp [lastWrite] at hlw
  | cons e t ih =>
    rw [setAll_cons]
    rw [lastWrite] at hlw
    cases hlt : lastWrite m.width k t with
    | some mo' =>
      rw [hlt] at hlw
      simp only [Option.some.injEq] at hlw
      subst hlw
      exact ih (m.set e.1 e.2.1 e.2.2) (by simpa [Matrix.set] using hk) hlt
    | none =>
      rw [hlt] at hlw
      by_cases hke : entryIdx m.width e = k
      · rw [if_pos hke, Option.some.injEq] at hlw
        subst hlw
        have huntgt : ∀ e' ∈ t, entryIdx m.width e' ≠ k := by
          intro e' he' hk'
          have : (lastWrite m.width k t).isSome := (lastWrite_isSome _ _ _).mpr ⟨e', he', hk'⟩
          rw [hlt] at this
          simp at this
        rw [setAll_getD_untargeted (m.set e.1 e.2.1 e.2.2) t k Module.Unset huntgt]
        show (m.value.set (e.1 * m.width + e.2.1) e.2.2).getD k Module.Unset = e.2.2
        unfold entryIdx at hke
        rw [hke]
        exact getD_set_self _ _ _ _ hk
      · rw [if_neg hke] at hlw
        exact absurd hlw (by simp)

theorem finderPattern_mods (col row : Nat) :
    ∀ e ∈ finderPattern col row, e.2.2 ≠ Module.Unset := by
  intro e he
  simp only [finderPattern, List.mem_append, List.mem_cons, List.mem_map, List.mem_flatMap,
    List.mem_singleton] at he
  aesop

theorem finderEntries_mods (w : Nat) :
    ∀ e ∈ finderEntries w, e.2.2 ≠ Module.Unset := by
  intro e he
  simp only [finderEntries, List.mem_append, List.mem_map] at he
  rcases he with ((((((((h | ⟨i, -, rfl⟩) | ⟨i, -, rfl⟩) | h) | ⟨i, -, rfl⟩) | ⟨i, -, rfl⟩)
    | h) | ⟨i, -, rfl⟩) | ⟨i, -, rfl⟩)
  · exact finderPattern_mods _ _ e h
  · simp
  · simp
  · exact finderPattern_mods _ _ e h
  · simp
  · simp
  · exact finderPattern_mods _ _ e h
  · simp
  · simp

theorem formatEntries_mods (w info : Nat) :
    ∀ e ∈ formatEntries w info, e.2.2 ≠ Module.Unset := by
  intro e he
  simp only [formatEntries, List.mem_append, List.mem_cons, List.mem_flatMap,
    List.mem_singleton, List.mem_range] at he
  aesop

theorem timingEntries_mods (w : Nat) :
    ∀ e ∈ timingEntries w, e.2.2 ≠ Module.Unset := by
  intro e he
  simp only [timingEntries, List.mem_flatMap, List.mem_cons, List.mem_range,
    List.mem_singleton] at he
  aesop

theorem versionEntries_mods (w info : Nat) :
    ∀ e ∈ versionEntries w info, e.2.2 ≠ Module.Unset := by
  intro e he
  simp only [versionEntries, List.mem_flatMap, List.mem_cons, List.mem_range,
    List.mem_singleton] at he
  aesop

theorem alignPatternEntries_mods (col row : Nat) :
    ∀ e ∈ alignPatternEntries col row, e.2.2 ≠ Module.Unset := by
  intro e he
  simp only [alignPatternEntries, List.mem_append, List.mem_cons, List.mem_map,
    List.mem_flatMap, List.mem_singleton] at he
  aesop

theorem alignEntries_mods (version w : Nat) :
    ∀ e ∈ alignEntries version w, e.2.2 ≠ Module.Unset := by
  intro e he
  simp only [alignEntries, List.mem_flatMap, List.mem_range] at he
  rcases he with ⟨i, -, j, -, hij⟩
  by_cases hskip : (i = 0 ∧ (j = 0 ∨ j = version / 7 + 2 - 1)) ∨ (i = version / 7 + 2 - 1 ∧ j = 0)
  · rw [if_pos hskip] at hij
    simp at hij
  · rw [if_neg hskip] at hij
    exact alignPatternEntries_mods _ _ e hij

theorem sameShape_refl (a : Matrix) : sameShape a a := ⟨rfl, rfl, rfl, rfl⟩

theorem sameShape_trans (a b c : Matrix) (h1 : sameShape a b) (h2 : sameShape b c) :
    sameShape a c :=
  ⟨h1.1.trans h2.1, h1.2.1.trans h2.2.1, h1.2.2.1.trans h2.2.2.1, h1.2.2.2.trans h2.2.2.2⟩

theorem setAll_sameShape (m : Matrix) (L : List (Nat × Nat × Module)) :
    sameShape m (setAll m L) ∧ (setAll m L).mask = m.mask := by
  obtain ⟨h1, h2, h3, h4, h5⟩ := setAll_shape m L
  exact ⟨⟨h1.symm, h2.symm, h3.symm, h5.symm⟩, h4⟩

theorem place_finder_sameShape (m : Matrix) :
    sameShape m (place_finder m) ∧ (place_finder m).mask = m.mask :=
  setAll_sameShape m _

theorem place_format_sameShape (m : Matrix) :
    sameShape m (place_format m) ∧ (place_format m).mask = m.mask :=
  setAll_sameShape m _

theorem place_timing_sameShape (m : Matrix) :
    sameShape m (place_timing m) ∧ (place_timing m).mask = m.mask :=
  setAll_sameShape m _

theorem place_version_sameShape (m : Matrix) :
    sameShape m (place_version m) ∧ (place_version m).mask = m.mask := by
  unfold place_version
  split
  · exact ⟨sameShape_refl m, rfl⟩
  · exact setAll_sameShape m _

theorem place_alignment_sameShape (m : Matrix) :
    sameShape m (place_alignment m) ∧ (place_alignment m).mask = m.mask := by
  unfold place_alignment
  split
  · exact ⟨sameShape_refl m, rfl⟩
  · exact setAll_sameShape m _

theorem apply_mask_sameShape (m : Matrix) :
    sameShape m (apply_mask m) ∧ (apply_mask m).mask = m.mask :=
  ⟨⟨rfl, rfl, rfl, (mapCells_length _ _ _).symm⟩, rfl⟩

theorem place_module_sameShape (m : Matrix) (qr : List Nat) (col row i : Nat) :
    sameShape m (place_module m qr col row i).1
    ∧ (place_module m qr col row i).1.mask = m.mask := by
  unfold place_module
  split
  · exact ⟨⟨rfl, rfl, rfl, by simp [Matrix.set]⟩, rfl⟩
  · exact ⟨sameShape_refl m, rfl⟩

theorem placeRun_sameShape (qr : List Nat) (col : Nat) (rows : List Nat)
    (st : Matrix × Nat) :
    sameShape st.1 (placeRun qr col rows st).1
    ∧ (placeRun qr col rows st).1.mask = st.1.mask := by
  induction rows generalizing st with
  | nil => exact ⟨sameShape_refl _, rfl⟩
  | cons r t ih =>
    have h1 := place_module_sameShape st.1 qr col r st.2
    set st2 := place_module st.1 qr col r st.2 with hst2
    have h2 := place_module_sameShape st2.1 qr (col - 1) r st2.2
    set st3 := place_module st2.1 qr (col - 1) r st2.2 with hst3
    have hrun : placeRun qr col (r :: t) st = placeRun qr col t st3 := rfl
    rw [hrun]
    obtain ⟨ih1, ih2⟩ := ih st3
    exact ⟨sameShape_trans _ _ _ (sameShape_trans _ _ _ h1.1 h2.1) ih1,
      ih2.trans (h2.2.trans h1.2)⟩

theorem place_data_go_sameShape (qr : List Nat) (fuel : Nat) (st : Matrix × Nat)
    (col : Nat) :
    sameShape st.1 (place_data_go qr fuel st col)
    ∧ (place_data_go qr fuel st col).mask = st.1.mask := by
  induction fuel generalizing st col with
  | zero => exact ⟨sameShape_refl _, rfl⟩
  | succ fuel ih =>
    rw [place_data_go]
    have h1 := placeRun_sameShape qr col (List.range st.1.width).reverse st
    set st1 := placeRun qr col (List.range st.1.width).reverse st with hst1
    set col2 := if col - 2 = 6 then col - 3 else col - 2 with hcol2
    have h2 := placeRun_sameShape qr col2 (List.range st1.1.width) st1
    set st2 := placeRun qr col2 (List.range st1.1.width) st1 with hst2
    split
    · exact ⟨sameShape_trans _ _ _ h1.1 h2.1, h2.2.trans h1.2⟩
    · obtain ⟨ih1, ih2⟩ := ih st2 (col2 - 2)
      exact ⟨sameShape_trans _ _ _ (sameShape_trans _ _ _ h1.1 h2.1) ih1,
        ih2.trans (h2.2.trans h1.2)⟩

theorem place_data_sameShape (m : Matrix) (qr : Codewords) :
    sameShape m (place_data m qr) ∧ (place_data m qr).mask = m.mask :=
  place_data_go_sameShape qr.value m.width (m, 0) (m.width - 1)

theorem place_all_sameShape (m : Matrix) (cw : Codewords) :
    sameShape m (place_all m cw) ∧ (place_all m cw).mask = m.mask := by
  obtain ⟨s1, k1⟩ := place_finder_sameShape m
  obtain ⟨s2, k2⟩ := place_format_sameShape (place_finder m)
  obtain ⟨s3, k3⟩ := place_timing_sameShape (place_format (place_finder m))
  obtain ⟨s4, k4⟩ := place_version_sameShape (place_timing (place_format (place_finder m)))
  obtain ⟨s5, k5⟩ := place_alignment_sameShape
    (place_version (place_timing (place_format (place_finder m))))
  obtain ⟨s6, k6⟩ := place_data_sameShape
    (place_alignment (place_version (place_timing (place_format (place_finder m))))) cw
  obtain ⟨s7, k7⟩ := apply_mask_sameShape
    (place_data (place_alignment (place_version (place_timing (place_format (place_finder m))))) cw)
  refine ⟨?_, ?_⟩
  · exact sameShape_trans _ _ _ s1 (sameShape_trans _ _ _ s2 (sameShape_trans _ _ _ s3
      (sameShape_trans _ _ _ s4 (sameShape_trans _ _ _ s5 (sameShape_trans _ _ _ s6 s7)))))
  · exact k7.trans (k6.trans (k5.trans (k4.trans (k3.trans (k2.trans k1)))))

theorem noUnsetAt_lt (v : List Module) (k : Nat) (h : noUnsetAt v k) : k < v.length := by
  by_contra hk
  exact h (getD_oob v k Module.Unset (by omega))

theorem idx_lt (x y w : Nat) (hx : x < w) (hy : y < w) : x * w + y < w * w := by
  have h1 : (x + 1) * w ≤ w * w := Nat.mul_le_mul_right w (by omega)
  have h3 : x * w + w = (x + 1) * w := by ring
  omega

theorem maskCell_ne_unset (mask : Mask) (w idx : Nat) (mo : Module)
    (h : mo ≠ Module.Unset) : maskCell mask w idx mo ≠ Module.Unset := by
  cases mo <;> cases hb : mask_bit mask (idx / w) (idx % w) <;>
    simp [maskCell, Module.toU8, hb] at h ⊢

theorem apply_mask_noUnsetAt (m : Matrix) (k : Nat) (h : noUnsetAt m.value k) :
    noUnsetAt (apply_mask m).value k := by
  have hk := noUnsetAt_lt _ _ h
  unfold noUnsetAt at h ⊢
  show (mapCells (maskCell m.mask m.width) 0 m.value).getD k Module.Unset ≠ Module.Unset
  rw [mapCells_getD _ _ _ _ _ hk]
  simpa using maskCell_ne_unset m.mask m.width k _ h

theorem maskCell_format (mask : Mask) (w idx : Nat) :
    maskCell mask w idx Module.FormatON = Module.FormatON
    ∧ maskCell mask w idx Module.FormatOFF = Module.FormatOFF :=
  ⟨rfl, rfl⟩

theorem apply_mask_getD_format (m : Matrix) (k : Nat)
    (h : m.value.getD k Module.Unset = Module.FormatON
       ∨ m.value.getD k Module.Unset = Module.FormatOFF) :
    (apply_mask m).value.getD k Module.Unset = m.value.getD k Module.Unset := by
  have hk : k < m.value.length := by
    apply noUnsetAt_lt
    unfold noUnsetAt
    rcases h with h | h <;> rw [h] <;> simp
  show (mapCells (maskCell m.mask m.width) 0 m.value).getD k Module.Unset
    = m.value.getD k Module.Unset
  rw [mapCells_getD _ _ _ _ _ hk]
  rcases h with h | h <;> rw [h] <;> simp <;> rfl

theorem place_module_noUnsetAt (m : Matrix) (qr : List Nat) (col row i k : Nat)
    (h : noUnsetAt m.value k) : noUnsetAt (place_module m qr col row i).1.value k := by
  unfold place_module
  split
  · apply noUnsetAt_set
    · split <;> simp
    · exact h
  · exact h

theorem place_module_getD_preserve (m : Matrix) (qr : List Nat) (col row i k : Nat)
    (h : noUnsetAt m.value k) :
    (place_module m qr col row i).1.value.getD k Module.Unset
      = m.value.getD k Module.Unset := by
  unfold place_module
  split
  · next hunset =>
    have hne : col * m.width + row ≠ k := by
      intro hek
      apply h
      rw [← hek]
      exact hunset
    exact getD_set_ne _ _ _ _ _ hne
  · rfl

theorem place_module_covers (m : Matrix) (qr : List Nat) (col row i : Nat)
    (h : col * m.width + row < m.value.length) :
    noUnsetAt (place_module m qr col row i).1.value (col * m.width + row) := by
  unfold place_module
  split
  · apply noUnsetAt_set_self
    · split <;> simp
    · exact h
  · next hset => exact hset

theorem placeRun_cons (qr : List Nat) (col r : Nat) (t : List Nat) (st : Matrix × Nat) :
    placeRun qr col (r :: t) st
      = placeRun qr col t
          (place_module (place_module st.1 qr col r st.2).1 qr (col - 1) r
            (place_module st.1 qr col r st.2).2) := rfl

theorem placeRun_noUnsetAt (qr : List Nat) (col : Nat) (rows : List Nat)
    (st : Matrix × Nat) (k : Nat) (h : noUnsetAt st.1.value k) :
    noUnsetAt (placeRun qr col rows st).1.value k := by
  induction rows generalizing st with
  | nil => exact h
  | cons r t ih =>
    rw [placeRun_cons]
    exact ih _ (place_module_noUnsetAt _ _ _ _ _ _ (place_module_noUnsetAt _ _ _ _ _ _ h))

theorem placeRun_getD_preserve (qr : List Nat) (col : Nat) (rows : List Nat)
    (st : Matrix × Nat) (k : Nat) (h : noUnsetAt st.1.value k) :
    (placeRun qr col rows st).1.value.getD k Module.Unset
      = st.1.value.getD k Module.Unset := by
  induction rows generalizing st with
  | nil => rfl
  | cons r t ih =>
    rw [placeRun_cons]
    have h1 := place_module_noUnsetAt st.1 qr col r st.2 k h
    have h2 := place_module_noUnsetAt (place_module st.1 qr col r st.2).1 qr (col - 1) r
      (place_module st.1 qr col r st.2).2 k h1
    rw [ih _ h2,
      place_module_getD_preserve (place_module st.1 qr col r st.2).1 qr (col - 1) r
        (place_module st.1 qr col r st.2).2 k h1,
      place_module_getD_preserve st.1 qr col r st.2 k h]

theorem placeRun_covers (qr : List Nat) (col : Nat) (rows : List Nat)
    (st : Matrix × Nat) (r : Nat) (hr : r ∈ rows)
    (hcol : col < st.1.width) (hrw : r < st.1.width)
    (hlen : st.1.value.length = st.1.width * st.1.width) :
    noUnsetAt (placeRun qr col rows st).1.value (col * st.1.width + r)
    ∧ noUnsetAt (placeRun qr col rows st).1.value ((col - 1) * st.1.width + r) := by
  induction rows generalizing st with
  | nil => simp at hr
  | cons r0 t ih =>
    rw [placeRun_cons]
    have hs2 := place_module_sameShape st.1 qr col r0 st.2
    set st2 := place_module st.1 qr col r0 st.2 with hst2
    have hs3 := place_module_sameShape st2.1 qr (col - 1) r0 st2.2
    set st3 := place_module st2.1 qr (col - 1) r0 st2.2 with hst3
    have hw2 : st2.1.width = st.1.width := hs2.1.1.symm
    have hw3 : st3.1.width = st.1.width := (hs3.1.1.symm).trans hw2
    have hl2 : st2.1.value.length = st.1.value.length := hs2.1.2.2.2.symm
    have hl3 : st3.1.value.length = st.1.value.length := (hs3.1.2.2.2.symm).trans hl2
    rcases List.mem_cons.mp hr with hr0 | hrt
    · subst hr0
      have hidx1 : col * st.1.width + r < st.1.value.length := by
        rw [hlen]; exact idx_lt _ _ _ hcol hrw
      have hidx2 : (col - 1) * st.1.width + r < st.1.value.length := by
        rw [hlen]; exact idx_lt _ _ _ (by omega) hrw
      have hcov1 : noUnsetAt st2.1.value (col * st.1.width + r) := by
        rw [hst2]
        exact place_module_covers st.1 qr col r st.2 hidx1
      have hcov1' : noUnsetAt st3.1.value (col * st.1.width + r) :=
        place_module_noUnsetAt _ _ _ _ _ _ hcov1
      have hcov2 : noUnsetAt st3.1.value ((col - 1) * st.1.width + r) := by
        rw [hst3]
        have : (col - 1) * st2.1.width + r < st2.1.value.length := by
          rw [hw2, hl2]; exact hidx2
        have hc := place_module_covers st2.1 qr (col - 1) r st2.2 this
        rwa [hw2] at hc
      exact ⟨placeRun_noUnsetAt _ _ _ _ _ hcov1', placeRun_noUnsetAt _ _ _ _ _ hcov2⟩
    · have := ih st3 hrt (by rw [hw3]; exact hcol) (by rw [hw3]; exact hrw)
        (by rw [hl3, hw3]; exact hlen)
      rwa [hw3] at this

theorem place_data_go_noUnsetAt (qr : List Nat) (fuel : Nat) (st : Matrix × Nat)
    (col k : Nat) (h : noUnsetAt st.1.value k) :
    noUnsetAt (place_data_go qr fuel st col).value k := by
  induction fuel generalizing st col with
  | zero => exact h
  | succ fuel ih =>
    rw [place_data_go]
    have h1 := placeRun_noUnsetAt qr col (List.range st.1.width).reverse st k h
    set st1 := placeRun qr col (List.range st.1.width).reverse st
    set col2 := if col - 2 = 6 then col - 3 else col - 2
    have h2 := placeRun_noUnsetAt qr col2 (List.range st1.1.width) st1 k h1
    set st2 := placeRun qr col2 (List.range st1.1.width) st1
    split
    · exact h2
    · exact ih st2 (col2 - 2) h2

theorem place_data_go_getD_preserve (qr : List Nat) (fuel : Nat) (st : Matrix × Nat)
    (col k : Nat) (h : noUnsetAt st.1.value k) :
    (place_data_go qr fuel st col).value.getD k Module.Unset
      = st.1.value.getD k Module.Unset := by
  induction fuel generalizing st col with
  | zero => rfl
  | succ fuel ih =>
    rw [place_data_go]
    have h1 := placeRun_noUnsetAt qr col (List.range st.1.width).reverse st k h
    have e1 := placeRun_getD_preserve qr col (List.range st.1.width).reverse st k h
    set st1 := placeRun qr col (List.range st.1.width).reverse st
    set col2 := if col - 2 = 6 then col - 3 else col - 2
    have h2 := placeRun_noUnsetAt qr col2 (List.range st1.1.width) st1 k h1
    have e2 := placeRun_getD_preserve qr col2 (List.range st1.1.width) st1 k h1
    set st2 := placeRun qr col2 (List.range st1.1.width) st1
    split
    · exact e2.trans e1
    · exact (ih st2 (col2 - 2) h2).trans (e2.trans e1)

theorem noUnsetAt_congr_idx (v : List Module) (k k' : Nat) (h : k = k')
    (hn : noUnsetAt v k) : noUnsetAt v k' := h ▸ hn

theorem place_data_go_covers (qr : List Nat) (fuel : Nat) :
    ∀ (st : Matrix × Nat) (col : Nat),
      st.1.value.length = st.1.width * st.1.width →
      col < st.1.width → col % 4 = 0 → 8 ≤ col → col ≤ fuel →
      ∀ x y, x ≤ col → x ≠ 6 → y < st.1.width →
        noUnsetAt (place_data_go qr fuel st col).value (x * st.1.width + y) := by
  induction fuel with
  | zero =>
    intro st col _ _ _ h8 hf
    omega
  | succ fuel ih =>
    intro st col hlen hcolw hmod hcol8 hfuel x y hxcol hx6 hyw
    rw [place_data_go]
    have hs1 := placeRun_sameShape qr col (List.range st.1.width).reverse st
    set st1 := placeRun qr col (List.range st.1.width).reverse st with hst1
    have hw1 : st1.1.width = st.1.width := hs1.1.1.symm
    have hl1 : st1.1.value.length = st.1.value.length := hs1.1.2.2.2.symm
    set col2 := if col - 2 = 6 then col - 3 else col - 2 with hcol2
    have hs2 := placeRun_sameShape qr col2 (List.range st1.1.width) st1
    set st2 := placeRun qr col2 (List.range st1.1.width) st1 with hst2
    have hw2 : st2.1.width = st.1.width := hs2.1.1.symm.trans hw1
    have hl2 : st2.1.value.length = st.1.value.length := hs2.1.2.2.2.symm.trans hl1
    have hcol2le : col2 ≤ col - 2 := by rw [hcol2]; split <;> omega
    have hcol2w : col2 < st1.1.width := by rw [hw1]; omega
    have hcov_down : ∀ y', y' < st.1.width →
        noUnsetAt st1.1.value (col * st.1.width + y')
        ∧ noUnsetAt st1.1.value ((col - 1) * st.1.width + y') := by
      intro y' hy'
      exact placeRun_covers qr col _ st y'
        (by simp [List.mem_reverse, List.mem_range, hy']) hcolw hy' hlen
    have hcov_up : ∀ y', y' < st.1.width →
        noUnsetAt st2.1.value (col2 * st.1.width + y')
        ∧ noUnsetAt st2.1.value ((col2 - 1) * st.1.width + y') := by
      intro y' hy'
      have hcv := placeRun_covers qr col2 (List.range st1.1.width) st1 y'
        (by rw [List.mem_range, hw1]; exact hy') hcol2w (by rw [hw1]; exact hy')
        (by rw [hl1, hw1]; exact hlen)
      exact ⟨noUnsetAt_congr_idx _ _ _ (by rw [hw1]) hcv.1,
        noUnsetAt_congr_idx _ _ _ (by rw [hw1]) hcv.2⟩
    have hcov_down2 : ∀ y', y' < st.1.width →
        noUnsetAt st2.1.value (col * st.1.width + y')
        ∧ noUnsetAt st2.1.value ((col - 1) * st.1.width + y') := by
      intro y' hy'
      exact ⟨placeRun_noUnsetAt _ _ _ _ _ (hcov_down y' hy').1,
             placeRun_noUnsetAt _ _ _ _ _ (hcov_down y' hy').2⟩
    by_cases hc8 : col = 8
    · subst hc8
      have hcol2v : col2 = 5 := by norm_num [hcol2]
      rw [if_neg (by omega)]
      cases fuel with
      | zero => omega
      | succ fuel2 =>
        rw [place_data_go]
        have hs3 := placeRun_sameShape qr (col2 - 2) (List.range st2.1.width).reverse st2
        set st3 := placeRun qr (col2 - 2) (List.range st2.1.width).reverse st2 with hst3
        have hw3 : st3.1.width = st.1.width := hs3.1.1.symm.trans hw2
        have hl3 : st3.1.value.length = st.1.value.length := hs3.1.2.2.2.symm.trans hl2
        set col4 := if col2 - 2 - 2 = 6 then col2 - 2 - 3 else col2 - 2 - 2 with hcol4
        have hcol4v : col4 = 1 := by rw [hcol4, hcol2v]; decide
        have hs4 := placeRun_sameShape qr col4 (List.range st3.1.width) st3
        set st4 := placeRun qr col4 (List.range st3.1.width) st3 with hst4
        have hw4 : st4.1.width = st.1.width := hs4.1.1.symm.trans hw3
        rw [if_pos hcol4v]
        have hcov_3 : ∀ y', y' < st.1.width →
            noUnsetAt st3.1.value ((col2 - 2) * st.1.width + y')
            ∧ noUnsetAt st3.1.value ((col2 - 2 - 1) * st.1.width + y') := by
          intro y' hy'
          have hcv := placeRun_covers qr (col2 - 2) (List.range st2.1.width).reverse st2 y'
            (by rw [List.mem_reverse, List.mem_range, hw2]; exact hy')
            (by rw [hw2, hcol2v]; omega) (by rw [hw2]; exact hy')
            (by rw [hl2, hw2]; exact hlen)
          exact ⟨noUnsetAt_congr_idx _ _ _ (by rw [hw2]) hcv.1,
            noUnsetAt_congr_idx _ _ _ (by rw [hw2]) hcv.2⟩
        have hcov_4 : ∀ y', y' < st.1.width →
            noUnsetAt st4.1.value (col4 * st.1.width + y')
            ∧ noUnsetAt st4.1.value ((col4 - 1) * st.1.width + y') := by
          intro y' hy'
          have hcv := placeRun_covers qr col4 (List.range st3.1.width) st3 y'
            (by rw [List.mem_range, hw3]; exact hy') (by rw [hw3, hcol4v]; omega)
            (by rw [hw3]; exact hy') (by rw [hl3, hw3]; exact hlen)
          exact ⟨noUnsetAt_congr_idx _ _ _ (by rw [hw3]) hcv.1,
            noUnsetAt_congr_idx _ _ _ (by rw [hw3]) hcv.2⟩
        have pres34 : ∀ k, noUnsetAt st2.1.value k → noUnsetAt st4.1.value k := by
          intro k hk
          exact placeRun_noUnsetAt _ _ _ _ _ (placeRun_noUnsetAt _ _ _ _ _ hk)
        have pres4 : ∀ k, noUnsetAt st3.1.value k → noUnsetAt st4.1.value k := by
          intro k hk
          exact placeRun_noUnsetAt _ _ _ _ _ hk
        rw [hcol2v] at hcov_up hcov_3
        rw [hcol4v] at hcov_4
        interval_cases x
        · exact (hcov_4 y hyw).2
        · exact (hcov_4 y hyw).1
        · exact pres4 _ ((hcov_3 y hyw).2)
        · exact pres4 _ ((hcov_3 y hyw).1)
        · exact pres34 _ ((hcov_up y hyw).2)
        · exact pres34 _ ((hcov_up y hyw).1)
        · exact absurd rfl hx6
        · exact pres34 _ ((hcov_down2 y hyw).2)
        · exact pres34 _ ((hcov_down2 y hyw).1)
    · have hcol12 : 12 ≤ col := by omega
      have hcol2v : col2 = col - 2 := by
        rw [hcol2, if_neg (by omega)]
      rw [if_neg (by omega)]
      have presrec : ∀ k, noUnsetAt st2.1.value k →
          noUnsetAt (place_data_go qr fuel st2 (col2 - 2)).value k := by
        intro k hk
        exact place_data_go_noUnsetAt qr fuel st2 (col2 - 2) k hk
      by_cases hxhi : col - 3 ≤ x
      · have hxcase : x = col ∨ x = col - 1 ∨ x = col - 2 ∨ x = col - 3 := by omega
        rcases hxcase with rfl | hx1 | hx2 | hx3
        · exact presrec _ ((hcov_down2 y hyw).1)
        · rw [hx1]; exact presrec _ ((hcov_down2 y hyw).2)
        · rw [hx2, ← hcol2v]; exact presrec _ ((hcov_up y hyw).1)
        · rw [hx3, show col - 3 = col2 - 1 by omega]
          exact presrec _ ((hcov_up y hyw).2)
      · have hrec := ih st2 (col2 - 2) (by rw [hl2, hw2]; exact hlen)
          (by rw [hw2]; omega) (by omega) (by omega) (by omega)
          x y (by omega) hx6 (by rw [hw2]; exact hyw)
        rwa [hw2] at hrec

theorem finderPattern_x6 (col row r : Nat) (hr : r < 7) :
    (col + 6, row + r, Module.FinderON) ∈ finderPattern col row := by
  interval_cases r <;> (try simp only [Nat.add_zero]) <;> simp only [finderPattern]
  · have hp : ((col + 6 : Nat), row, Module.FinderON)
        ∈ (List.range 7).map (fun i => (col + i, row, Module.FinderON)) := by
      refine List.mem_map.mpr ⟨6, ?_, rfl⟩
      simp
    exact List.mem_append_left _ (List.mem_append_left _ (List.mem_append_left _
      (List.mem_append_left _ hp)))
  · have hp : ((col + 6 : Nat), row + 1, Module.FinderON)
        ∈ [(col + 6, row + 1, Module.FinderON)] := by simp
    exact List.mem_append_left _ (List.mem_append_left _ (List.mem_append_left _
      (List.mem_append_right _ (List.mem_append_right _ hp))))
  · have hp : ((col + 6 : Nat), row + 2, Module.FinderON)
        ∈ (List.range' 2 3).flatMap (fun r =>
            [(col, row + r, Module.FinderON), (col + 1, row + r, Module.FinderOFF),
             (col + 2, row + r, Module.FinderON), (col + 3, row + r, Module.FinderON),
             (col + 4, row + r, Module.FinderON), (col + 5, row + r, Module.FinderOFF),
             (col + 6, row + r, Module.FinderON)]) := by
      refine List.mem_flatMap.mpr ⟨2, by decide, ?_⟩
      simp
    exact List.mem_append_left _ (List.mem_append_left _ (List.mem_append_right _ hp))
  · have hp : ((col + 6 : Nat), row + 3, Module.FinderON)
        ∈ (List.range' 2 3).flatMap (fun r =>
            [(col, row + r, Module.FinderON), (col + 1, row + r, Module.FinderOFF),
             (col + 2, row + r, Module.FinderON), (col + 3, row + r, Module.FinderON),
             (col + 4, row + r, Module.FinderON), (col + 5, row + r, Module.FinderOFF),
             (col + 6, row + r, Module.FinderON)]) := by
      refine List.mem_flatMap.mpr ⟨3, by decide, ?_⟩
      simp
    exact List.mem_append_left _ (List.mem_append_left _ (List.mem_append_right _ hp))
  · have hp : ((col + 6 : Nat), row + 4, Module.FinderON)
        ∈ (List.range' 2 3).flatMap (fun r =>
            [(col, row + r, Module.FinderON), (col + 1, row + r, Module.FinderOFF),
             (col + 2, row + r, Module.FinderON), (col + 3, row + r, Module.FinderON),
             (col + 4, row + r, Module.FinderON), (col + 5, row + r, Module.FinderOFF),
             (col + 6, row + r, Module.FinderON)]) := by
      refine List.mem_flatMap.mpr ⟨4, by decide, ?_⟩
      simp
    exact List.mem_append_left _ (List.mem_append_left _ (List.mem_append_right _ hp))
  · have hp : ((col + 6 : Nat), row + 5, Module.FinderON)
        ∈ [(col + 6, row + 5, Module.FinderON)] := by simp
    exact List.mem_append_left _ (List.mem_append_right _ (List.mem_append_right _ hp))
  · have hp : ((col + 6 : Nat), row + 6, Module.FinderON)
        ∈ (List.range 7).map (fun i => (col + i, row + 6, Module.FinderON)) := by
      refine List.mem_map.mpr ⟨6, ?_, rfl⟩
      simp
    exact List.mem_append_right _ hp

theorem place_finder_noUnsetAt (m : Matrix) (k : Nat) (h : noUnsetAt m.value k) :
    noUnsetAt (place_finder m).value k :=
  setAll_noUnsetAt_preserve m _ k (finderEntries_mods m.width) h

theorem place_format_noUnsetAt (m : Matrix) (k : Nat) (h : noUnsetAt m.value k) :
    noUnsetAt (place_format m).value k :=
  setAll_noUnsetAt_preserve m _ k (formatEntries_mods m.width _) h

theorem place_timing_noUnsetAt (m : Matrix) (k : Nat) (h : noUnsetAt m.value k) :
    noUnsetAt (place_timing m).value k :=
  setAll_noUnsetAt_preserve m _ k (timingEntries_mods m.width) h

theorem place_version_noUnsetAt (m : Matrix) (k : Nat) (h : noUnsetAt m.value k) :
    noUnsetAt (place_version m).value k := by
  unfold place_version
  split
  · exact h
  · exact setAll_noUnsetAt_preserve m _ k (versionEntries_mods m.width _) h

theorem place_alignment_noUnsetAt (m : Matrix) (k : Nat) (h : noUnsetAt m.value k) :
    noUnsetAt (place_alignment m).value k := by
  unfold place_alignment
  split
  · exact h
  · exact setAll_noUnsetAt_preserve m _ k (alignEntries_mods m.version m.width) h

theorem pipeline_col6 (m : Matrix) (y : Nat) (hw : 21 ≤ m.width)
    (hlen : m.value.length = m.width * m.width) (hy : y < m.width) :
    noUnsetAt (place_timing (place_format (place_finder m))).value (6 * m.width + y) := by
  have hs1 := place_finder_sameShape m
  have hs2 := place_format_sameShape (place_finder m)
  have hw1 : (place_finder m).width = m.width := hs1.1.1.symm
  have hl1 : (place_finder m).value.length = m.value.length := hs1.1.2.2.2.symm
  have hw2 : (place_format (place_finder m)).width = m.width := hs2.1.1.symm.trans hw1
  have hl2 : (place_format (place_finder m)).value.length = m.value.length :=
    hs2.1.2.2.2.symm.trans hl1
  have hidx : 6 * m.width + y < m.value.length := by
    rw [hlen]; exact idx_lt _ _ _ (by omega) hy
  have hcase : y ≤ 6 ∨ y = 7 ∨ (8 ≤ y ∧ y ≤ m.width - 9) ∨ y = m.width - 8
      ∨ (m.width - 7 ≤ y ∧ y < m.width) := by omega
  rcases hcase with hc | hc | hc | hc | hc
  · -- finder pattern at the origin covers (6, y) for y up to 6
    apply place_timing_noUnsetAt
    apply place_format_noUnsetAt
    apply setAll_noUnsetAt_target m _ _ (finderEntries_mods m.width) ?_ hidx
    refine ⟨(6, y, Module.FinderON), ?_, by simp [entryIdx]⟩
    have hp := finderPattern_x6 0 0 y (by omega)
    simp only [Nat.zero_add] at hp
    simp only [finderEntries]
    exact List.mem_append_left _ (List.mem_append_left _ (List.mem_append_left _
      (List.mem_append_left _ (List.mem_append_left _ (List.mem_append_left _
      (List.mem_append_left _ (List.mem_append_left _ hp)))))))
  · -- the separator run below the top-left finder covers (6, 7)
    subst hc
    apply place_timing_noUnsetAt
    apply place_format_noUnsetAt
    apply setAll_noUnsetAt_target m _ _ (finderEntries_mods m.width) ?_ hidx
    refine ⟨(6, 7, Module.Separator), ?_, by simp [entryIdx]⟩
    have hp : ((6 : Nat), 7, Module.Separator)
        ∈ (List.range 8).map (fun i => (i, 7, Module.Separator)) := by
      refine List.mem_map.mpr ⟨6, ?_, rfl⟩
      simp
    simp only [finderEntries]
    exact List.mem_append_left _ (List.mem_append_left _ (List.mem_append_left _
      (List.mem_append_left _ (List.mem_append_left _ (List.mem_append_left _
      (List.mem_append_left _ (List.mem_append_right _ hp)))))))
  · -- the vertical timing belt covers (6, y) for 8 <= y <= width - 9
    apply setAll_noUnsetAt_target _ _ _ (timingEntries_mods _)
    · refine ⟨(6, 8 + (y - 8),
        if (y - 8) &&& 1 = 0 then Module.TimingON else Module.TimingOFF), ?_, ?_⟩
      · apply List.mem_flatMap.mpr
        exact ⟨y - 8, by rw [List.mem_range]; omega, by simp⟩
      · simp only [entryIdx, hw2]
        omega
    · rw [hl2]; exact hidx
  · -- the separator run above the bottom-left finder covers (6, width - 8)
    subst hc
    apply place_timing_noUnsetAt
    apply place_format_noUnsetAt
    apply setAll_noUnsetAt_target m _ _ (finderEntries_mods m.width) ?_ hidx
    refine ⟨(6, m.width - 8, Module.Separator), ?_, by simp [entryIdx]⟩
    have hp : ((6 : Nat), m.width - 8, Module.Separator)
        ∈ (List.range 8).map (fun i => (i, m.width - 8, Module.Separator)) := by
      refine List.mem_map.mpr ⟨6, ?_, rfl⟩
      simp
    simp only [finderEntries]
    exact List.mem_append_left _ (List.mem_append_left _ (List.mem_append_left _
      (List.mem_append_left _ (List.mem_append_right _ hp))))
  · -- the bottom-left finder pattern covers (6, y) for y >= width - 7
    apply place_timing_noUnsetAt
    apply place_format_noUnsetAt
    apply setAll_noUnsetAt_target m _ _ (finderEntries_mods m.width) ?_ hidx
    refine ⟨(6, y, Module.FinderON), ?_, by simp [entryIdx]⟩
    have hp := finderPattern_x6 0 (m.width - 7) (y - (m.width - 7)) (by omega)
    simp only [Nat.zero_add] at hp
    rw [show m.width - 7 + (y - (m.width - 7)) = y by omega] at hp
    simp only [finderEntries]
    exact List.mem_append_left _ (List.mem_append_left _ (List.mem_append_left _
      (List.mem_append_left _ (List.mem_append_left _ (List.mem_append_right _ hp)))))

theorem place_all_no_unset (m : Matrix) (cw : Codewords) (hw : 21 ≤ m.width)
    (hmod : m.width % 4 = 1) (hlen : m.value.length = m.width * m.width) :
    ∀ k, k < m.value.length → noUnsetAt (place_all m cw).value k := by
  intro k hk
  have hwpos : 0 < m.width := by omega
  have hs1 := place_finder_sameShape m
  have hs2 := place_format_sameShape (place_finder m)
  have hs3 := place_timing_sameShape (place_format (place_finder m))
  set m3 := place_timing (place_format (place_finder m)) with hm3
  have hs4 := place_version_sameShape m3
  set m4 := place_version m3 with hm4
  have hs5 := place_alignment_sameShape m4
  set m5 := place_alignment m4 with hm5
  have hw5 : m5.width = m.width :=
    (hs5.1.1.symm.trans (hs4.1.1.symm.trans
      (hs3.1.1.symm.trans (hs2.1.1.symm.trans hs1.1.1.symm))))
  have hl5 : m5.value.length = m.value.length :=
    (hs5.1.2.2.2.symm.trans (hs4.1.2.2.2.symm.trans
      (hs3.1.2.2.2.symm.trans (hs2.1.2.2.2.symm.trans hs1.1.2.2.2.symm))))
  set x := k / m.width with hx
  set y := k % m.width with hy
  have hxw : x < m.width := by
    rw [hx]
    exact Nat.div_lt_of_lt_mul (by rw [← hlen]; exact hk)
  have hyw : y < m.width := Nat.mod_lt _ hwpos
  have hkxy : x * m.width + y = k := by
    have h0 := Nat.div_add_mod k m.width
    rw [Nat.mul_comm] at h0
    exact h0
  show noUnsetAt (apply_mask (place_data m5 cw)).value k
  apply apply_mask_noUnsetAt
  by_cases hx6 : x = 6
  · have hc := pipeline_col6 m y hw hlen hyw
    have hc4 : noUnsetAt m4.value (6 * m.width + y) := place_version_noUnsetAt m3 _ hc
    have hc5 : noUnsetAt m5.value (6 * m.width + y) := place_alignment_noUnsetAt m4 _ hc4
    have hc6 : noUnsetAt (place_data m5 cw).value (6 * m.width + y) :=
      place_data_go_noUnsetAt cw.value m5.width (m5, 0) (m5.width - 1) _ hc5
    exact noUnsetAt_congr_idx _ _ _ (by rw [← hkxy, hx6]) hc6
  · have hl5' : m5.value.length = m5.width * m5.width := by
      rw [hl5, hw5, hlen]
    have hcov := place_data_go_covers cw.value m5.width (m5, 0) (m5.width - 1)
      hl5' (by rw [hw5]; omega) (by rw [hw5]; omega) (by rw [hw5]; omega)
      (by rw [hw5]; omega) x y (by rw [hw5]; omega) hx6 (by rw [hw5]; exact hyw)
    exact noUnsetAt_congr_idx _ _ _ (by rw [hw5, hkxy]) hcov

theorem selectStep_mat (st : Matrix × Nat × Mask) (mk : Mask) :
    (selectStep st mk).1 = place_format (apply_mask { apply_mask st.1 with mask := mk }) := by
  unfold selectStep
  dsimp only
  split <;> rfl

theorem maskLoop_noUnsetAt (l : List Mask) :
    ∀ (st : Matrix × Nat × Mask) (k : Nat), noUnsetAt st.1.value k →
      noUnsetAt ((l.foldl selectStep st).1).value k := by
  induction l with
  | nil => intro st k h; exact h
  | cons mk t ih =>
    intro st k h
    rw [List.foldl_cons]
    apply ih
    rw [selectStep_mat]
    apply place_format_noUnsetAt
    apply apply_mask_noUnsetAt
    show noUnsetAt (apply_mask st.1).value k
    exact apply_mask_noUnsetAt _ _ h

theorem maskLoop_sameShape (l : List Mask) :
    ∀ st : Matrix × Nat × Mask, sameShape st.1 ((l.foldl selectStep st).1) := by
  induction l with
  | nil => intro st; exact sameShape_refl _
  | cons mk t ih =>
    intro st
    rw [List.foldl_cons]
    refine sameShape_trans _ _ _ ?_ (ih (selectStep st mk))
    rw [selectStep_mat]
    have h1 := apply_mask_sameShape st.1
    have h2 : sameShape (apply_mask st.1) { apply_mask st.1 with mask := mk } :=
      ⟨rfl, rfl, rfl, rfl⟩
    have h3 := apply_mask_sameShape { apply_mask st.1 with mask := mk }
    have h4 := place_format_sameShape (apply_mask { apply_mask st.1 with mask := mk })
    exact sameShape_trans _ _ _ h1.1 (sameShape_trans _ _ _ h2
      (sameShape_trans _ _ _ h3.1 h4.1))

theorem matrix_new_some_eq (cw : Codewords) (mk : Mask) :
    Matrix.new cw (some mk) = place_all (initMatrix cw mk) cw := rfl

theorem matrix_new_none_eq (cw : Codewords) :
    Matrix.new cw none
      = (if (selectState cw).2.2 ≠ (selectState cw).1.mask then
           place_format (apply_mask { apply_mask (selectState cw).1 with mask := (selectState cw).2.2 })
         else (selectState cw).1) := rfl

theorem initMatrix_len (cw : Codewords) (mk : Mask) :
    (initMatrix cw mk).value.length = (initMatrix cw mk).width * (initMatrix cw mk).width := by
  simp [initMatrix]

theorem selectState_eq (cw : Codewords) :
    selectState cw = maskList.foldl selectStep
      (place_all (initMatrix cw Mask.M0) cw,
       score (place_all (initMatrix cw Mask.M0) cw),
       (place_all (initMatrix cw Mask.M0) cw).mask) := rfl

theorem selectState_no_unset (cw : Codewords) (h1 : 1 ≤ cw.version) :
    ∀ k, k < (initMatrix cw Mask.M0).value.length →
      noUnsetAt (selectState cw).1.value k := by
  intro k hk
  have hkey := place_all_no_unset (initMatrix cw Mask.M0) cw
    (by simp [initMatrix]; omega) (by simp [initMatrix]; omega)
    (initMatrix_len cw Mask.M0) k hk
  rw [selectState_eq]
  exact maskLoop_noUnsetAt maskList
    (place_all (initMatrix cw Mask.M0) cw,
     score (place_all (initMatrix cw Mask.M0) cw),
     (place_all (initMatrix cw Mask.M0) cw).mask) k hkey

theorem selectState_sameShape (cw : Codewords) :
    sameShape (initMatrix cw Mask.M0) (selectState cw).1 := by
  rw [selectState_eq]
  have h2 := maskLoop_sameShape maskList
    (place_all (initMatrix cw Mask.M0) cw,
     score (place_all (initMatrix cw Mask.M0) cw),
     (place_all (initMatrix cw Mask.M0) cw).mask)
  exact sameShape_trans _ _ _ (place_all_sameShape (initMatrix cw Mask.M0) cw).1 h2

attribute [irreducible] selectState

set_option maxRecDepth 4000 in
theorem matrix_new_all_no_unset (cw : Codewords) (omask : Option Mask)
    (h1 : 1 ≤ cw.version) :
    ∀ k, k < (Matrix.new cw omask).value.length →
      noUnsetAt (Matrix.new cw omask).value k := by
  cases omask with
  | some mk =>
    have heq := matrix_new_some_eq cw mk
    have hkey := place_all_no_unset (initMatrix cw mk) cw
      (by simp [initMatrix]; omega) (by simp [initMatrix]; omega)
      (initMatrix_len cw mk)
    have hsh := place_all_sameShape (initMatrix cw mk) cw
    intro k hk
    rw [heq] at hk ⊢
    exact hkey k (by rw [hsh.1.2.2.2]; exact hk)
  | none =>
    have heq := matrix_new_none_eq cw
    have hkey2 := selectState_no_unset cw h1
    have hshst := selectState_sameShape cw
    intro k hk
    rw [heq] at hk ⊢
    by_cases hc : (selectState cw).2.2 ≠ (selectState cw).1.mask
    · rw [if_pos hc] at hk ⊢
      apply place_format_noUnsetAt
      apply apply_mask_noUnsetAt
      show noUnsetAt (apply_mask (selectState cw).1).value k
      apply apply_mask_noUnsetAt
      apply hkey2
      have hlf : (place_format (apply_mask
          { apply_mask (selectState cw).1 with mask := (selectState cw).2.2 })).value.length
          = (selectState cw).1.value.length := by
        have ha1 := apply_mask_sameShape (selectState cw).1
        have ha2 := apply_mask_sameShape
          { apply_mask (selectState cw).1 with mask := (selectState cw).2.2 }
        have ha3 := place_format_sameShape
          (apply_mask { apply_mask (selectState cw).1 with mask := (selectState cw).2.2 })
        exact (ha3.1.2.2.2.symm.trans ha2.1.2.2.2.symm).trans ha1.1.2.2.2.symm
      rw [hlf] at hk
      rw [hshst.2.2.2]
      exact hk
    · rw [if_neg hc] at hk ⊢
      apply hkey2
      rw [hshst.2.2.2]
      exact hk

/-- Claim C2: for every version 1-40 and every ECL, the matrix Matrix::new
returns (under any forced-mask option, hence in particular for
capacity-matched codewords) contains zero modules left in the Unset state:
finder, format, timing, version, alignment and data placement together
assign every cell of the width x width grid. -/
theorem c2_matrix_new_no_unset (cw : Codewords) (omask : Option Mask)
    (h1 : 1 ≤ cw.version) (h2 : cw.version ≤ 40) :
    (Matrix.new cw omask).value.count Module.Unset = 0 := by
  rw [List.count_eq_zero]
  intro hmem
  obtain ⟨i, hi, hval⟩ := List.mem_iff_getElem.mp hmem
  have hno := matrix_new_all_no_unset cw omask h1 i hi
  apply hno
  rw [List.getD_eq_getElem?_getD, List.getElem?_eq_getElem hi, hval]
  rfl

/-- Witness for claim C2 at version 1, ECL Low, empty codewords, no forced
mask. -/
theorem c2_matrix_new_no_unset_witness :
    (1 ≤ (Codewords.mk [] 1 ECL.Low).version ∧ (Codewords.mk [] 1 ECL.Low).version ≤ 40)
    ∧ (Matrix.new (Codewords.mk [] 1 ECL.Low) none).value.count Module.Unset = 0 :=
  ⟨⟨le_refl 1, by decide⟩,
    c2_matrix_new_no_unset (Codewords.mk [] 1 ECL.Low) none (le_refl 1) (by decide)⟩

theorem matrix_eq (x y : Matrix) (hv : x.value = y.value) (hw : x.width = y.width)
    (hver : x.version = y.version) (he : x.ecl = y.ecl) (hm : x.mask = y.mask) : x = y := by
  cases x
  cases y
  simp_all

theorem coord_inj (w a b c d : Nat) (hb : b < w) (hd : d < w)
    (h : a * w + b = c * w + d) : a = c ∧ b = d := by
  have hw : 0 < w := by omega
  have h1 : (a * w + b) / w = a := by
    rw [Nat.mul_comm a w, Nat.mul_add_div hw, Nat.div_eq_of_lt hb, Nat.add_zero]
  have h2 : (c * w + d) / w = c := by
    rw [Nat.mul_comm c w, Nat.mul_add_div hw, Nat.div_eq_of_lt hd, Nat.add_zero]
  have hac : a = c := by rw [← h1, h, h2]
  subst hac
  exact ⟨rfl, by omega⟩

theorem formatPos_char (w : Nat) (hw : 21 ≤ w) (a b : Nat) (hp : (a, b) ∈ formatPos w) :
    a < w ∧ b < w ∧ a ≠ 6 ∧ b ≠ 6 ∧ (a = 8 ∨ b = 8)
    ∧ (a ≤ 8 ∨ w - 8 ≤ a) ∧ (b ≤ 8 ∨ w - 8 ≤ b) := by
  simp only [formatPos, List.mem_append, List.mem_flatMap, List.mem_range, List.mem_cons,
    List.not_mem_nil, or_false, formatCoord1, formatCoord2, Prod.mk.injEq] at hp
  rcases hp with ⟨i, hi, ⟨ha, hb2⟩ | ⟨ha, hb2⟩⟩ | ⟨ha, hb2⟩
  · subst ha
    subst hb2
    interval_cases i <;> simp <;> omega
  · subst ha
    subst hb2
    interval_cases i <;> simp <;> omega
  · subst ha
    subst hb2
    omega

theorem formatIdx_lt (w : Nat) (hw : 21 ≤ w) (k : Nat) (hk : k ∈ formatIdx w) :
    k < w * w := by
  obtain ⟨p, hp, hpk⟩ := List.mem_map.mp hk
  obtain ⟨a, b⟩ := p
  have hc := formatPos_char w hw a b hp
  rw [← hpk]
  exact idx_lt a b w hc.1 hc.2.1

theorem formatEntries_coords (w info : Nat) :
    ∀ e ∈ formatEntries w info, (e.1, e.2.1) ∈ formatPos w := by
  intro e he
  simp only [formatEntries, List.mem_append, List.mem_flatMap, List.mem_range, List.mem_cons,
    List.not_mem_nil, or_false] at he
  rcases he with ⟨i, hi, he | he⟩ | he
  · subst he
    refine List.mem_append_left _ (List.mem_flatMap.mpr ⟨i, by simpa using hi, ?_⟩)
    exact List.mem_cons_self _ _
  · subst he
    refine List.mem_append_left _ (List.mem_flatMap.mpr ⟨i, by simpa using hi, ?_⟩)
    exact List.mem_cons_of_mem _ (List.mem_cons_self _ _)
  · subst he
    exact List.mem_append_right _ (List.mem_cons_self _ _)

theorem formatPos_targets (w info : Nat) (k : Nat) (hk : k ∈ formatIdx w) :
    ∃ e ∈ formatEntries w info, entryIdx w e = k := by
  obtain ⟨p, hp, hpk⟩ := List.mem_map.mp hk
  simp only [formatPos, List.mem_append, List.mem_flatMap, List.mem_range, List.mem_cons,
    List.not_mem_nil, or_false] at hp
  rcases hp with ⟨i, hi, hp | hp⟩ | hp
  · subst hp
    refine ⟨((formatCoord1 i).1, (formatCoord1 i).2,
        if (info >>> i) &&& 1 = 1 then Module.FormatON else Module.FormatOFF), ?_, hpk⟩
    refine List.mem_append_left _ (List.mem_flatMap.mpr ⟨i, by simpa using hi, ?_⟩)
    exact List.mem_cons_self _ _
  · subst hp
    refine ⟨((formatCoord2 w i).1, (formatCoord2 w i).2,
        if (info >>> i) &&& 1 = 1 then Module.FormatON else Module.FormatOFF), ?_, hpk⟩
    refine List.mem_append_left _ (List.mem_flatMap.mpr ⟨i, by simpa using hi, ?_⟩)
    exact List.mem_cons_of_mem _ (List.mem_cons_self _ _)
  · subst hp
    exact ⟨(8, w - 8, Module.FormatON),
      List.mem_append_right _ (List.mem_cons_self _ _), hpk⟩

theorem formatEntries_kind (w info : Nat) :
    ∀ e ∈ formatEntries w info, e.2.2 = Module.FormatON ∨ e.2.2 = Module.FormatOFF := by
  intro e he
  simp only [formatEntries, List.mem_append, List.mem_flatMap, List.mem_range, List.mem_cons,
    List.not_mem_nil, or_false] at he
  rcases he with ⟨i, hi, he | he⟩ | he
  · subst he
    by_cases hc : (info >>> i) &&& 1 = 1
    · exact Or.inl (if_pos hc)
    · exact Or.inr (if_neg hc)
  · subst he
    by_cases hc : (info >>> i) &&& 1 = 1
    · exact Or.inl (if_pos hc)
    · exact Or.inr (if_neg hc)
  · subst he
    exact Or.inl rfl

theorem lastWrite_mods (w k : Nat) (L : List (Nat × Nat × Module)) (P : Module → Prop)
    (hP : ∀ e ∈ L, P e.2.2) (mo : Module) (hlw : lastWrite w k L = some mo) : P mo := by
  induction L with
  | nil => simp [lastWrite] at hlw
  | cons e t ih =>
    rw [lastWrite] at hlw
    cases hlt : lastWrite w k t with
    | some mo2 =>
      rw [hlt] at hlw
      simp only [Option.some.injEq] at hlw
      subst hlw
      exact ih (fun e2 he2 => hP e2 (List.mem_cons_of_mem _ he2)) hlt
    | none =>
      rw [hlt] at hlw
      by_cases hke : entryIdx w e = k
      · rw [if_pos hke, Option.some.injEq] at hlw
        subst hlw
        exact hP e (List.mem_cons_self _ _)
      · rw [if_neg hke] at hlw
        exact absurd hlw (by simp)

theorem timing_not_format (w : Nat) (hw : 21 ≤ w) (k : Nat) (hk : k ∈ formatIdx w) :
    ∀ e ∈ timingEntries w, entryIdx w e ≠ k := by
  intro e he hek
  obtain ⟨p, hp, hpk⟩ := List.mem_map.mp hk
  obtain ⟨a, b⟩ := p
  have hc := formatPos_char w hw a b hp
  simp only [timingEntries, List.mem_flatMap, List.mem_range, List.mem_cons,
    List.not_mem_nil, or_false] at he
  obtain ⟨i, hi, he | he⟩ := he
  · subst he
    simp only [entryIdx] at hek
    have hco := coord_inj w (8 + i) 6 a b (by omega) hc.2.1 (hek.trans hpk.symm)
    exact hc.2.2.2.1 hco.2.symm
  · subst he
    simp only [entryIdx] at hek
    have hco := coord_inj w 6 (8 + i) a b (by omega) hc.2.1 (hek.trans hpk.symm)
    exact hc.2.2.1 hco.1.symm

theorem version_not_format (w info : Nat) (hw : 45 ≤ w) (k : Nat) (hk : k ∈ formatIdx w) :
    ∀ e ∈ versionEntries w info, entryIdx w e ≠ k := by
  intro e he hek
  obtain ⟨p, hp, hpk⟩ := List.mem_map.mp hk
  obtain ⟨a, b⟩ := p
  have hc := formatPos_char w (by omega) a b hp
  simp only [versionEntries, List.mem_flatMap, List.mem_range, List.mem_cons,
    List.not_mem_nil, or_false] at he
  obtain ⟨i, hi, he | he⟩ := he
  · subst he
    simp only [entryIdx] at hek
    have hco := coord_inj w (i / 3) (i % 3 + w - 11) a b (by omega) hc.2.1 (hek.trans hpk.symm)
    have h8 := hc.2.2.2.2.1
    have hr1 := hc.2.2.2.2.2.1
    have hr2 := hc.2.2.2.2.2.2
    omega
  · subst he
    simp only [entryIdx] at hek
    have hco := coord_inj w (i % 3 + w - 11) (i / 3) a b (by omega) hc.2.1 (hek.trans hpk.symm)
    have h8 := hc.2.2.2.2.1
    have hr1 := hc.2.2.2.2.2.1
    have hr2 := hc.2.2.2.2.2.2
    omega

theorem alignPatternEntries_coords (col row : Nat) :
    ∀ e ∈ alignPatternEntries col row,
      col ≤ e.1 ∧ e.1 ≤ col + 4 ∧ row ≤ e.2.1 ∧ e.2.1 ≤ row + 4 := by
  intro e he
  simp only [alignPatternEntries, List.mem_append, List.mem_map, List.mem_flatMap,
    List.mem_range, List.mem_cons, List.not_mem_nil, or_false] at he
  rcases he with ((⟨i, hi, he⟩ | ⟨i, hi, he⟩) | he) | ⟨i, hi, he⟩
  · subst he
    exact ⟨Nat.le_refl _, Nat.le_add_right _ _, Nat.le_add_right _ _,
      Nat.add_le_add_left (by omega) _⟩
  · replace hi : 1 ≤ i ∧ i ≤ 3 := by
      rw [show List.range' 1 3 = [1, 2, 3] from rfl] at hi
      simp only [List.mem_cons, List.not_mem_nil, or_false] at hi
      omega
    rcases he with he | he | he | he | he <;> subst he
    · exact ⟨Nat.le_add_right _ _, Nat.add_le_add_left (by omega) _,
        Nat.le_refl _, Nat.le_add_right _ _⟩
    · exact ⟨Nat.le_add_right _ _, Nat.add_le_add_left (by omega) _,
        Nat.le_add_right _ _, Nat.add_le_add_left (by omega) _⟩
    · exact ⟨Nat.le_add_right _ _, Nat.add_le_add_left (by omega) _,
        Nat.le_add_right _ _, Nat.add_le_add_left (by omega) _⟩
    · exact ⟨Nat.le_add_right _ _, Nat.add_le_add_left (by omega) _,
        Nat.le_add_right _ _, Nat.add_le_add_left (by omega) _⟩
    · exact ⟨Nat.le_add_right _ _, Nat.add_le_add_left (by omega) _,
        Nat.le_add_right _ _, Nat.add_le_add_left (by omega) _⟩
  · subst he
    exact ⟨Nat.le_add_right _ _, Nat.add_le_add_left (by omega) _,
      Nat.le_add_right _ _, Nat.add_le_add_left (by omega) _⟩
  · subst he
    exact ⟨Nat.le_add_right _ _, Nat.add_le_add_left (by omega) _,
      Nat.le_add_right _ _, Nat.add_le_add_left (by omega) _⟩

theorem alignTable : ∀ v, v < 41 → v < 2 ∨ alignOK v := by decide

theorem align_not_format (v : Nat) (h2v : 2 ≤ v) (h40 : v ≤ 40) (k : Nat)
    (hk : k ∈ formatIdx (v * 4 + 17)) :
    ∀ e ∈ alignEntries v (v * 4 + 17), entryIdx (v * 4 + 17) e ≠ k := by
  intro e he hek
  obtain ⟨p, hp, hpk⟩ := List.mem_map.mp hk
  obtain ⟨pa, pb⟩ := p
  have hc := formatPos_char (v * 4 + 17) (by omega) pa pb hp
  obtain ⟨hOK0, hOKlast, hOKmid, hOKall⟩ := (alignTable v (by omega)).resolve_left (by omega)
  simp only [alignEntries, List.mem_flatMap, List.mem_range] at he
  obtain ⟨i, hi, j, hj, he⟩ := he
  by_cases hskip : (i = 0 ∧ (j = 0 ∨ j = v / 7 + 2 - 1)) ∨ (i = v / 7 + 2 - 1 ∧ j = 0)
  · rw [if_pos hskip] at he
    simp at he
  · rw [if_neg hskip] at he
    have hcoords := alignPatternEntries_coords _ _ e he
    have hci := hOKall i hi
    have hcj := hOKall j hj
    have he1w : e.1 < v * 4 + 17 := by omega
    have he2w : e.2.1 < v * 4 + 17 := by omega
    unfold entryIdx at hek
    obtain ⟨hpa, hpb⟩ :=
      coord_inj (v * 4 + 17) e.1 e.2.1 pa pb he2w hc.2.1 (hek.trans hpk.symm)
    rcases hc.2.2.2.2.1 with h8 | h8
    · have hi0 : i = 0 := by
        by_contra hne
        rcases Nat.lt_or_ge i (v / 7 + 2 - 1) with hlt | hge
        · have := (hOKmid i hlt).resolve_left hne
          omega
        · have hieq : i = v / 7 + 2 - 1 := by omega
          rw [hieq, hOKlast] at hcoords
          omega
      have hjne0 : j ≠ 0 := fun hj0 => hskip (Or.inl ⟨hi0, Or.inl hj0⟩)
      have hjnel : j ≠ v / 7 + 2 - 1 := fun hjl => hskip (Or.inl ⟨hi0, Or.inr hjl⟩)
      have hmidj := (hOKmid j (by omega)).resolve_left hjne0
      have hrb := hc.2.2.2.2.2.2
      omega
    · have hj0 : j = 0 := by
        by_contra hne
        rcases Nat.lt_or_ge j (v / 7 + 2 - 1) with hlt | hge
        · have := (hOKmid j hlt).resolve_left hne
          omega
        · have hjeq : j = v / 7 + 2 - 1 := by omega
          rw [hjeq, hOKlast] at hcoords
          omega
      have hine0 : i ≠ 0 := fun hi0 => hskip (Or.inl ⟨hi0, Or.inl hj0⟩)
      have hinel : i ≠ v / 7 + 2 - 1 := fun hil => hskip (Or.inr ⟨hil, hj0⟩)
      have hmidi := (hOKmid i (by omega)).resolve_left hine0
      have hra := hc.2.2.2.2.2.1
      omega

theorem setAll_value_congr (ma mb : Matrix) (L : List (Nat × Nat × Module))
    (hv : ma.value = mb.value) (hw : ma.width = mb.width) :
    (setAll ma L).value = (setAll mb L).value := by
  induction L generalizing ma mb with
  | nil => exact hv
  | cons e t ih =>
    rw [setAll_cons, setAll_cons]
    refine ih _ _ ?_ ?_
    · show ma.value.set (e.1 * ma.width + e.2.1) e.2.2
        = mb.value.set (e.1 * mb.width + e.2.1) e.2.2
      rw [hv, hw]
    · exact hw

theorem apply_mask_getD (m : Matrix) (k : Nat) (hk : k < m.value.length) :
    (apply_mask m).value.getD k Module.Unset
      = maskCell m.mask m.width k (m.value.getD k Module.Unset) := by
  have hmc := mapCells_getD (maskCell m.mask m.width) 0 m.value k Module.Unset hk
  simpa [apply_mask] using hmc

theorem build_premask (cw : Codewords) (mk : Mask) :
    Matrix.new cw (some mk) = apply_mask (preMask cw mk) := rfl

theorem preMask_props (cw : Codewords) (mk : Mask) :
    (preMask cw mk).width = cw.version * 4 + 17
    ∧ (preMask cw mk).version = cw.version
    ∧ (preMask cw mk).ecl = cw.ecl
    ∧ (preMask cw mk).mask = mk
    ∧ (preMask cw mk).value.length = (cw.version * 4 + 17) * (cw.version * 4 + 17) := by
  obtain ⟨s1, k1⟩ := place_finder_sameShape (initMatrix cw mk)
  obtain ⟨s2, k2⟩ := place_format_sameShape (stage1 cw mk)
  obtain ⟨s3, k3⟩ := place_timing_sameShape (stage2 cw mk)
  obtain ⟨s4, k4⟩ := place_version_sameShape (stage3 cw mk)
  obtain ⟨s5, k5⟩ := place_alignment_sameShape (stage4 cw mk)
  obtain ⟨s6, k6⟩ := place_data_sameShape (stamped cw mk) cw
  have hs : sameShape (initMatrix cw mk) (preMask cw mk) :=
    sameShape_trans _ _ _ s1 (sameShape_trans _ _ _ s2 (sameShape_trans _ _ _ s3
      (sameShape_trans _ _ _ s4 (sameShape_trans _ _ _ s5 s6))))
  refine ⟨hs.1.symm, hs.2.1.symm, hs.2.2.1.symm, ?_, ?_⟩
  · exact k6.trans (k5.trans (k4.trans (k3.trans (k2.trans k1))))
  · rw [← hs.2.2.2]
    simp [initMatrix]

theorem preMask_format (cw : Codewords) (mk : Mask) (h1 : 1 ≤ cw.version)
    (h2 : cw.version ≤ 40) (k : Nat) (hk : k ∈ formatIdx (cw.version * 4 + 17)) (mo : Module)
    (hlw : lastWrite (cw.version * 4 + 17) k
      (formatEntries (cw.version * 4 + 17) (FORMAT_INFO cw.ecl mk)) = some mo) :
    (preMask cw mk).value.getD k Module.Unset = mo := by
  have hw21 : 21 ≤ cw.version * 4 + 17 := by omega
  have hklt : k < (cw.version * 4 + 17) * (cw.version * 4 + 17) := formatIdx_lt _ hw21 k hk
  have hsh1 := place_finder_sameShape (initMatrix cw mk)
  have hsh2 := place_format_sameShape (stage1 cw mk)
  have hsh3 := place_timing_sameShape (stage2 cw mk)
  have hsh4 := place_version_sameShape (stage3 cw mk)
  have hw1 : (stage1 cw mk).width = cw.version * 4 + 17 := hsh1.1.1.symm
  have hv1 : (stage1 cw mk).version = cw.version := hsh1.1.2.1.symm
  have he1 : (stage1 cw mk).ecl = cw.ecl := hsh1.1.2.2.1.symm
  have hm1 : (stage1 cw mk).mask = mk := hsh1.2
  have hl1 : (stage1 cw mk).value.length = (cw.version * 4 + 17) * (cw.version * 4 + 17) := by
    show (place_finder (initMatrix cw mk)).value.length = _
    rw [← hsh1.1.2.2.2]
    simp [initMatrix]
  have hw2 : (stage2 cw mk).width = cw.version * 4 + 17 := hsh2.1.1.symm.trans hw1
  have hv2 : (stage2 cw mk).version = cw.version := hsh2.1.2.1.symm.trans hv1
  have hw3 : (stage3 cw mk).width = cw.version * 4 + 17 := hsh3.1.1.symm.trans hw2
  have hv3 : (stage3 cw mk).version = cw.version := hsh3.1.2.1.symm.trans hv2
  have hw4 : (stage4 cw mk).width = cw.version * 4 + 17 := hsh4.1.1.symm.trans hw3
  have hv4 : (stage4 cw mk).version = cw.version := hsh4.1.2.1.symm.trans hv3
  have hst2 : (stage2 cw mk).value.getD k Module.Unset = mo := by
    show (setAll (stage1 cw mk)
        (formatEntries (stage1 cw mk).width
          (FORMAT_INFO (stage1 cw mk).ecl (stage1 cw mk).mask))).value.getD k Module.Unset = mo
    rw [hw1, he1, hm1]
    refine setAll_getD_lastWrite _ _ k mo ?_ ?_
    · rw [hl1]
      exact hklt
    · rw [hw1]
      exact hlw
  have hmoU : mo ≠ Module.Unset :=
    lastWrite_mods _ _ _ (fun m => m ≠ Module.Unset) (formatEntries_mods _ _) mo hlw
  have hno2 : noUnsetAt (stage2 cw mk).value k := by
    unfold noUnsetAt
    rw [hst2]
    exact hmoU
  have hst3 : (stage3 cw mk).value.getD k Module.Unset = mo := by
    show (setAll (stage2 cw mk) (timingEntries (stage2 cw mk).width)).value.getD k
      Module.Unset = mo
    rw [hw2]
    rw [setAll_getD_untargeted (stage2 cw mk) (timingEntries (cw.version * 4 + 17)) k
      Module.Unset
      (fun e he => by
        rw [hw2]
        exact timing_not_format (cw.version * 4 + 17) hw21 k hk e he)]
    exact hst2
  have hst4 : (stage4 cw mk).value.getD k Module.Unset = mo := by
    show (place_version (stage3 cw mk)).value.getD k Module.Unset = mo
    unfold place_version
    split
    · exact hst3
    · next h7 =>
      rw [setAll_getD_untargeted (stage3 cw mk)
        (versionEntries (stage3 cw mk).width (VERSION_INFO (stage3 cw mk).version)) k
        Module.Unset
        (fun e he => by
          rw [hw3] at he
          rw [hw3]
          exact version_not_format (cw.version * 4 + 17) (VERSION_INFO (stage3 cw mk).version)
            (by rw [hv3] at h7; omega) k hk e he)]
      exact hst3
  have hst5 : (stamped cw mk).value.getD k Module.Unset = mo := by
    show (place_alignment (stage4 cw mk)).value.getD k Module.Unset = mo
    unfold place_alignment
    split
    · exact hst4
    · next hne1 =>
      rw [setAll_getD_untargeted (stage4 cw mk)
        (alignEntries (stage4 cw mk).version (stage4 cw mk).width) k Module.Unset
        (fun e he => by
          rw [hv4, hw4] at he
          rw [hw4]
          exact align_not_format cw.version (by rw [hv4] at hne1; omega) h2 k hk e he)]
      exact hst4
  have hno3 : noUnsetAt (stage3 cw mk).value k := place_timing_noUnsetAt (stage2 cw mk) k hno2
  have hno4 : noUnsetAt (stage4 cw mk).value k := place_version_noUnsetAt (stage3 cw mk) k hno3
  have hno5 : noUnsetAt (stamped cw mk).value k :=
    place_alignment_noUnsetAt (stage4 cw mk) k hno4
  have hdata : (preMask cw mk).value.getD k Module.Unset
      = (stamped cw mk).value.getD k Module.Unset := by
    show (place_data_go cw.value (stamped cw mk).width (stamped cw mk, 0)
        ((stamped cw mk).width - 1)).value.getD k Module.Unset = _
    exact place_data_go_getD_preserve cw.value (stamped cw mk).width (stamped cw mk, 0)
      ((stamped cw mk).width - 1) k hno5
  exact hdata.trans hst5

theorem offFmtRel_set (w : Nat) (va vb : List Module) (i : Nat) (mo : Module)
    (hmo : mo ≠ Module.Unset) (h : offFmtRel w va vb) :
    offFmtRel w (va.set i mo) (vb.set i mo) := by
  obtain ⟨hlen, hk⟩ := h
  refine ⟨by simp [hlen], fun k => ⟨fun hfmt => ?_, fun hoff => ?_⟩⟩
  · obtain ⟨ha, hb⟩ := (hk k).1 hfmt
    exact ⟨noUnsetAt_set va i mo k hmo ha, noUnsetAt_set vb i mo k hmo hb⟩
  · have heq := (hk k).2 hoff
    by_cases hik : i = k
    · subst hik
      by_cases hin : i < va.length
      · rw [getD_set_self va i mo _ hin, getD_set_self vb i mo _ (by omega)]
      · rw [getD_set_self_oob va i mo _ (by omega), getD_set_self_oob vb i mo _ (by omega)]
    · rw [getD_set_ne va i k mo _ hik, getD_set_ne vb i k mo _ hik]
      exact heq

theorem offFmtRel_setAll (w : Nat) (ma mb : Matrix) (L : List (Nat × Nat × Module))
    (hwa : ma.width = w) (hwb : mb.width = w)
    (hmods : ∀ e ∈ L, e.2.2 ≠ Module.Unset)
    (h : offFmtRel w ma.value mb.value) :
    offFmtRel w (setAll ma L).value (setAll mb L).value := by
  induction L generalizing ma mb with
  | nil => exact h
  | cons e t ih =>
    rw [setAll_cons, setAll_cons]
    refine ih (ma.set e.1 e.2.1 e.2.2) (mb.set e.1 e.2.1 e.2.2) hwa hwb
      (fun e2 he2 => hmods e2 (List.mem_cons_of_mem _ he2)) ?_
    show offFmtRel w (ma.value.set (e.1 * ma.width + e.2.1) e.2.2)
      (mb.value.set (e.1 * mb.width + e.2.1) e.2.2)
    rw [hwa, hwb]
    exact offFmtRel_set w ma.value mb.value (e.1 * w + e.2.1) e.2.2
      (hmods e (List.mem_cons_self _ _)) h

theorem offFmtRel_place_format (w : Nat) (hw : 21 ≤ w) (ma mb : Matrix)
    (hwa : ma.width = w) (hwb : mb.width = w) (hv : ma.value = mb.value)
    (hlen : ma.value.length = w * w) :
    offFmtRel w (place_format ma).value (place_format mb).value := by
  constructor
  · have la : (place_format ma).value.length = ma.value.length :=
      (place_format_sameShape ma).1.2.2.2.symm
    have lb : (place_format mb).value.length = mb.value.length :=
      (place_format_sameShape mb).1.2.2.2.symm
    rw [la, lb, hv]
  · intro k
    constructor
    · intro hfmt
      have hkma : k < ma.value.length := by
        rw [hlen]
        exact formatIdx_lt w hw k hfmt
      have hkmb : k < mb.value.length := by
        rw [← hv]
        exact hkma
      constructor
      · show noUnsetAt (setAll ma (formatEntries ma.width (FORMAT_INFO ma.ecl ma.mask))).value k
        refine setAll_noUnsetAt_target ma _ k (formatEntries_mods _ _) ?_ hkma
        rw [hwa]
        exact formatPos_targets w _ k hfmt
      · show noUnsetAt (setAll mb (formatEntries mb.width (FORMAT_INFO mb.ecl mb.mask))).value k
        refine setAll_noUnsetAt_target mb _ k (formatEntries_mods _ _) ?_ hkmb
        rw [hwb]
        exact formatPos_targets w _ k hfmt
    · intro hoff
      have ua : (place_format ma).value.getD k Module.Unset
          = ma.value.getD k Module.Unset := by
        show (setAll ma (formatEntries ma.width (FORMAT_INFO ma.ecl ma.mask))).value.getD k
          Module.Unset = _
        refine setAll_getD_untargeted ma _ k Module.Unset (fun e he hik => ?_)
        apply hoff
        rw [hwa] at he hik
        have hcp := formatEntries_coords w _ e he
        rw [← hik]
        exact List.mem_map.mpr ⟨(e.1, e.2.1), hcp, rfl⟩
      have ub : (place_format mb).value.getD k Module.Unset
          = mb.value.getD k Module.Unset := by
        show (setAll mb (formatEntries mb.width (FORMAT_INFO mb.ecl mb.mask))).value.getD k
          Module.Unset = _
        refine setAll_getD_untargeted mb _ k Module.Unset (fun e he hik => ?_)
        apply hoff
        rw [hwb] at he hik
        have hcp := formatEntries_coords w _ e he
        rw [← hik]
        exact List.mem_map.mpr ⟨(e.1, e.2.1), hcp, rfl⟩
      rw [ua, ub, hv]

theorem offFmtRel_place_timing (w : Nat) (ma mb : Matrix) (hwa : ma.width = w)
    (hwb : mb.width = w) (h : offFmtRel w ma.value mb.value) :
    offFmtRel w (place_timing ma).value (place_timing mb).value := by
  show offFmtRel w (setAll ma (timingEntries ma.width)).value
    (setAll mb (timingEntries mb.width)).value
  rw [hwa, hwb]
  exact offFmtRel_setAll w ma mb _ hwa hwb (timingEntries_mods w) h

theorem offFmtRel_place_version (w v0 : Nat) (ma mb : Matrix) (hwa : ma.width = w)
    (hwb : mb.width = w) (hva : ma.version = v0) (hvb : mb.version = v0)
    (h : offFmtRel w ma.value mb.value) :
    offFmtRel w (place_version ma).value (place_version mb).value := by
  unfold place_version
  rw [hva, hvb, hwa, hwb]
  by_cases h7 : v0 < 7
  · rw [if_pos h7, if_pos h7]
    exact h
  · rw [if_neg h7, if_neg h7]
    exact offFmtRel_setAll w ma mb _ hwa hwb (versionEntries_mods _ _) h

theorem offFmtRel_place_alignment (w v0 : Nat) (ma mb : Matrix) (hwa : ma.width = w)
    (hwb : mb.width = w) (hva : ma.version = v0) (hvb : mb.version = v0)
    (h : offFmtRel w ma.value mb.value) :
    offFmtRel w (place_alignment ma).value (place_alignment mb).value := by
  unfold place_alignment
  rw [hva, hvb, hwa, hwb]
  by_cases hv1 : v0 = 1
  · rw [if_pos hv1, if_pos hv1]
    exact h
  · rw [if_neg hv1, if_neg hv1]
    exact offFmtRel_setAll w ma mb _ hwa hwb (alignEntries_mods _ _) h

theorem offFmtRel_place_module (w : Nat) (qr : List Nat) (col row : Nat)
    (ma mb : Matrix) (ia ib : Nat) (hwa : ma.width = w) (hwb : mb.width = w)
    (hi : ia = ib) (h : offFmtRel w ma.value mb.value) :
    offFmtRel w (place_module ma qr col row ia).1.value
      (place_module mb qr col row ib).1.value
    ∧ (place_module ma qr col row ia).2 = (place_module mb qr col row ib).2 := by
  subst hi
  have hga : ma.get col row = ma.value.getD (col * w + row) Module.Unset := by
    show ma.value.getD (col * ma.width + row) Module.Unset = _
    rw [hwa]
  have hgb : mb.get col row = mb.value.getD (col * w + row) Module.Unset := by
    show mb.value.getD (col * mb.width + row) Module.Unset = _
    rw [hwb]
  by_cases hfmt : col * w + row ∈ formatIdx w
  · obtain ⟨hna, hnb⟩ := (h.2 (col * w + row)).1 hfmt
    have hgau : ¬ ma.get col row = Module.Unset := by
      rw [hga]
      exact hna
    have hgbu : ¬ mb.get col row = Module.Unset := by
      rw [hgb]
      exact hnb
    unfold place_module
    rw [if_neg hgau, if_neg hgbu]
    exact ⟨h, rfl⟩
  · have heq : ma.get col row = mb.get col row := by
      rw [hga, hgb]
      exact (h.2 (col * w + row)).2 hfmt
    by_cases hu : ma.get col row = Module.Unset
    · have hub : mb.get col row = Module.Unset := by
        rw [← heq]
        exact hu
      unfold place_module
      rw [if_pos hu, if_pos hub]
      refine ⟨?_, rfl⟩
      show offFmtRel w
        (ma.value.set (col * ma.width + row)
          (if (qr.getD (ia / 8) 0 >>> (7 - ia % 8)) &&& 1 = 1
           then Module.DataON else Module.DataOFF))
        (mb.value.set (col * mb.width + row)
          (if (qr.getD (ia / 8) 0 >>> (7 - ia % 8)) &&& 1 = 1
           then Module.DataON else Module.DataOFF))
      rw [hwa, hwb]
      refine offFmtRel_set w ma.value mb.value (col * w + row) _ ?_ h
      split <;> simp
    · have hub : ¬ mb.get col row = Module.Unset := by
        rw [← heq]
        exact hu
      unfold place_module
      rw [if_neg hu, if_neg hub]
      exact ⟨h, rfl⟩

theorem offFmtRel_placeRun (w : Nat) (qr : List Nat) (col : Nat) (rows : List Nat) :
    ∀ (sta stb : Matrix × Nat), sta.1.width = w → stb.1.width = w → sta.2 = stb.2 →
      offFmtRel w sta.1.value stb.1.value →
      offFmtRel w (placeRun qr col rows sta).1.value (placeRun qr col rows stb).1.value
      ∧ (placeRun qr col rows sta).2 = (placeRun qr col rows stb).2 := by
  induction rows with
  | nil => exact fun sta stb _ _ hcnt h => ⟨h, hcnt⟩
  | cons r t ih =>
    intro sta stb hwa hwb hcnt h
    rw [placeRun_cons, placeRun_cons]
    obtain ⟨h1, hc1⟩ := offFmtRel_place_module w qr col r sta.1 stb.1 sta.2 stb.2 hwa hwb hcnt h
    have hwa1 : (place_module sta.1 qr col r sta.2).1.width = w :=
      (place_module_sameShape sta.1 qr col r sta.2).1.1.symm.trans hwa
    have hwb1 : (place_module stb.1 qr col r stb.2).1.width = w :=
      (place_module_sameShape stb.1 qr col r stb.2).1.1.symm.trans hwb
    obtain ⟨h2, hc2⟩ := offFmtRel_place_module w qr (col - 1) r
      (place_module sta.1 qr col r sta.2).1 (place_module stb.1 qr col r stb.2).1
      (place_module sta.1 qr col r sta.2).2 (place_module stb.1 qr col r stb.2).2
      hwa1 hwb1 hc1 h1
    have hwa2 : (place_module (place_module sta.1 qr col r sta.2).1 qr (col - 1) r
        (place_module sta.1 qr col r sta.2).2).1.width = w :=
      (place_module_sameShape _ qr (col - 1) r _).1.1.symm.trans hwa1
    have hwb2 : (place_module (place_module stb.1 qr col r stb.2).1 qr (col - 1) r
        (place_module stb.1 qr col r stb.2).2).1.width = w :=
      (place_module_sameShape _ qr (col - 1) r _).1.1.symm.trans hwb1
    exact ih _ _ hwa2 hwb2 hc2 h2

theorem offFmtRel_place_data_go (w : Nat) (qr : List Nat) (fuel : Nat) :
    ∀ (sta stb : Matrix × Nat) (col : Nat), sta.1.width = w → stb.1.width = w →
      sta.2 = stb.2 → offFmtRel w sta.1.value stb.1.value →
      offFmtRel w (place_data_go qr fuel sta col).value
        (place_data_go qr fuel stb col).value := by
  induction fuel with
  | zero => exact fun sta stb col _ _ _ h => h
  | succ fuel ih =>
    intro sta stb col hwa hwb hcnt h
    rw [place_data_go, place_data_go]
    rw [hwa, hwb]
    obtain ⟨h1, hc1⟩ := offFmtRel_placeRun w qr col (List.range w).reverse sta stb hwa hwb hcnt h
    have hwa1 : (placeRun qr col (List.range w).reverse sta).1.width = w :=
      (placeRun_sameShape qr col (List.range w).reverse sta).1.1.symm.trans hwa
    have hwb1 : (placeRun qr col (List.range w).reverse stb).1.width = w :=
      (placeRun_sameShape qr col (List.range w).reverse stb).1.1.symm.trans hwb
    rw [hwa1, hwb1]
    obtain ⟨h2, hc2⟩ := offFmtRel_placeRun w qr (if col - 2 = 6 then col - 3 else col - 2)
      (List.range w) (placeRun qr col (List.range w).reverse sta)
      (placeRun qr col (List.range w).reverse stb) hwa1 hwb1 hc1 h1
    have hwa2 : (placeRun qr (if col - 2 = 6 then col - 3 else col - 2) (List.range w)
        (placeRun qr col (List.range w).reverse sta)).1.width = w :=
      (placeRun_sameShape qr _ (List.range w) _).1.1.symm.trans hwa1
    have hwb2 : (placeRun qr (if col - 2 = 6 then col - 3 else col - 2) (List.range w)
        (placeRun qr col (List.range w).reverse stb)).1.width = w :=
      (placeRun_sameShape qr _ (List.range w) _).1.1.symm.trans hwb1
    by_cases hcone : (if col - 2 = 6 then col - 3 else col - 2) = 1
    · rw [if_pos hcone, if_pos hcone]
      exact h2
    · rw [if_neg hcone, if_neg hcone]
      exact ih _ _ _ hwa2 hwb2 hc2 h2

theorem preMask_lockstep (cw : Codewords) (a b : Mask) (h1 : 1 ≤ cw.version)
    (h2 : cw.version ≤ 40) :
    offFmtRel (cw.version * 4 + 17) (preMask cw a).value (preMask cw b).value := by
  have hw21 : 21 ≤ cw.version * 4 + 17 := by omega
  have hv1 : (stage1 cw a).value = (stage1 cw b).value :=
    setAll_value_congr (initMatrix cw a) (initMatrix cw b)
      (finderEntries (initMatrix cw a).width) rfl rfl
  have hsa1 := place_finder_sameShape (initMatrix cw a)
  have hsb1 := place_finder_sameShape (initMatrix cw b)
  have hw1a : (stage1 cw a).width = cw.version * 4 + 17 := hsa1.1.1.symm
  have hw1b : (stage1 cw b).width = cw.version * 4 + 17 := hsb1.1.1.symm
  have hver1a : (stage1 cw a).version = cw.version := hsa1.1.2.1.symm
  have hver1b : (stage1 cw b).version = cw.version := hsb1.1.2.1.symm
  have hl1a : (stage1 cw a).value.length = (cw.version * 4 + 17) * (cw.version * 4 + 17) := by
    show (place_finder (initMatrix cw a)).value.length = _
    rw [← hsa1.1.2.2.2]
    simp [initMatrix]
  have hrel2 : offFmtRel (cw.version * 4 + 17) (stage2 cw a).value (stage2 cw b).value :=
    offFmtRel_place_format (cw.version * 4 + 17) hw21 (stage1 cw a) (stage1 cw b)
      hw1a hw1b hv1 hl1a
  have hsa2 := place_format_sameShape (stage1 cw a)
  have hsb2 := place_format_sameShape (stage1 cw b)
  have hw2a : (stage2 cw a).width = cw.version * 4 + 17 := hsa2.1.1.symm.trans hw1a
  have hw2b : (stage2 cw b).width = cw.version * 4 + 17 := hsb2.1.1.symm.trans hw1b
  have hver2a : (stage2 cw a).version = cw.version := hsa2.1.2.1.symm.trans hver1a
  have hver2b : (stage2 cw b).version = cw.version := hsb2.1.2.1.symm.trans hver1b
  have hrel3 : offFmtRel (cw.version * 4 + 17) (stage3 cw a).value (stage3 cw b).value :=
    offFmtRel_place_timing (cw.version * 4 + 17) (stage2 cw a) (stage2 cw b)
      hw2a hw2b hrel2
  have hsa3 := place_timing_sameShape (stage2 cw a)
  have hsb3 := place_timing_sameShape (stage2 cw b)
  have hw3a : (stage3 cw a).width = cw.version * 4 + 17 := hsa3.1.1.symm.trans hw2a
  have hw3b : (stage3 cw b).width = cw.version * 4 + 17 := hsb3.1.1.symm.trans hw2b
  have hver3a : (stage3 cw a).version = cw.version := hsa3.1.2.1.symm.trans hver2a
  have hver3b : (stage3 cw b).version = cw.version := hsb3.1.2.1.symm.trans hver2b
  have hrel4 : offFmtRel (cw.version * 4 + 17) (stage4 cw a).value (stage4 cw b).value :=
    offFmtRel_place_version (cw.version * 4 + 17) cw.version (stage3 cw a) (stage3 cw b)
      hw3a hw3b hver3a hver3b hrel3
  have hsa4 := place_version_sameShape (stage3 cw a)
  have hsb4 := place_version_sameShape (stage3 cw b)
  have hw4a : (stage4 cw a).width = cw.version * 4 + 17 := hsa4.1.1.symm.trans hw3a
  have hw4b : (stage4 cw b).width = cw.version * 4 + 17 := hsb4.1.1.symm.trans hw3b
  have hver4a : (stage4 cw a).version = cw.version := hsa4.1.2.1.symm.trans hver3a
  have hver4b : (stage4 cw b).version = cw.version := hsb4.1.2.1.symm.trans hver3b
  have hrel5 : offFmtRel (cw.version * 4 + 17) (stamped cw a).value (stamped cw b).value :=
    offFmtRel_place_alignment (cw.version * 4 + 17) cw.version (stage4 cw a) (stage4 cw b)
      hw4a hw4b hver4a hver4b hrel4
  have hsa5 := place_alignment_sameShape (stage4 cw a)
  have hsb5 := place_alignment_sameShape (stage4 cw b)
  have hw5a : (stamped cw a).width = cw.version * 4 + 17 := hsa5.1.1.symm.trans hw4a
  have hw5b : (stamped cw b).width = cw.version * 4 + 17 := hsb5.1.1.symm.trans hw4b
  have hgoal2 : offFmtRel (cw.version * 4 + 17)
      (place_data_go cw.value (stamped cw a).width (stamped cw a, 0)
        ((stamped cw a).width - 1)).value
      (place_data_go cw.value (stamped cw b).width (stamped cw b, 0)
        ((stamped cw b).width - 1)).value := by
    rw [hw5a, hw5b]
    exact offFmtRel_place_data_go (cw.version * 4 + 17) cw.value (cw.version * 4 + 17)
      (stamped cw a, 0) (stamped cw b, 0) (cw.version * 4 + 17 - 1) hw5a hw5b rfl hrel5
  exact hgoal2

theorem apply_mask_width (m : Matrix) : (apply_mask m).width = m.width := rfl

theorem apply_mask_version (m : Matrix) : (apply_mask m).version = m.version := rfl

theorem apply_mask_ecl (m : Matrix) : (apply_mask m).ecl = m.ecl := rfl

theorem apply_mask_mask (m : Matrix) : (apply_mask m).mask = m.mask := rfl

theorem apply_mask_value (m : Matrix) :
    (apply_mask m).value = mapCells (maskCell m.mask m.width) 0 m.value := rfl

theorem mask_update_width (m : Matrix) (b : Mask) :
    ({ m with mask := b } : Matrix).width = m.width := rfl

theorem mask_update_version (m : Matrix) (b : Mask) :
    ({ m with mask := b } : Matrix).version = m.version := rfl

theorem mask_update_ecl (m : Matrix) (b : Mask) :
    ({ m with mask := b } : Matrix).ecl = m.ecl := rfl

theorem mask_update_mask (m : Matrix) (b : Mask) :
    ({ m with mask := b } : Matrix).mask = b := rfl

theorem mask_update_value (m : Matrix) (b : Mask) :
    ({ m with mask := b } : Matrix).value = m.value := rfl

theorem place_format_eq (m : Matrix) :
    place_format m = setAll m (formatEntries m.width (FORMAT_INFO m.ecl m.mask)) := rfl

theorem place_all_build (cw : Codewords) :
    place_all (initMatrix cw Mask.M0) cw = Matrix.new cw (some Mask.M0) := rfl

attribute [irreducible] preMask stamped stage1 stage2 stage3 stage4 place_data
attribute [irreducible] place_data_go placeRun place_module place_all place_finder
attribute [irreducible] place_format place_timing place_version place_alignment
attribute [irreducible] apply_mask setAll initMatrix Matrix.new mapCells maskCell score

theorem remask_value (cw : Codewords) (a b : Mask) (h1 : 1 ≤ cw.version)
    (h2 : cw.version ≤ 40) :
    (place_format (apply_mask { preMask cw a with mask := b })).value
      = (apply_mask (preMask cw b)).value := by
  have hpa := preMask_props cw a
  have hpb := preMask_props cw b
  have hlock := preMask_lockstep cw a b h1 h2
  have hww : (apply_mask { preMask cw a with mask := b }).width = cw.version * 4 + 17 := by
    rw [apply_mask_width, mask_update_width]
    exact hpa.1
  have hee : (apply_mask { preMask cw a with mask := b }).ecl = cw.ecl := by
    rw [apply_mask_ecl, mask_update_ecl]
    exact hpa.2.2.1
  have hmm2 : (apply_mask { preMask cw a with mask := b }).mask = b := by
    rw [apply_mask_mask, mask_update_mask]
  have hPaLen : ({ preMask cw a with mask := b } : Matrix).value.length
      = (cw.version * 4 + 17) * (cw.version * 4 + 17) := by
    rw [mask_update_value]
    exact hpa.2.2.2.2
  have hpf0 := place_format_eq (apply_mask { preMask cw a with mask := b })
  rw [hww, hee, hmm2] at hpf0
  have eA1 : (place_format (apply_mask { preMask cw a with mask := b })).value.length
      = (apply_mask { preMask cw a with mask := b }).value.length :=
    (place_format_sameShape _).1.2.2.2.symm
  have eA2 : (apply_mask { preMask cw a with mask := b }).value.length
      = (preMask cw a).value.length := by
    rw [apply_mask_value, mapCells_length, mask_update_value]
  have eB1 : (apply_mask (preMask cw b)).value.length = (preMask cw b).value.length := by
    rw [apply_mask_value, mapCells_length]
  refine list_eq_of_getD _ _ (by rw [eA1, eA2, eB1, hpa.2.2.2.2, hpb.2.2.2.2]) (fun k => ?_)
  by_cases hklt : k < (cw.version * 4 + 17) * (cw.version * 4 + 17)
  · by_cases hfmt : k ∈ formatIdx (cw.version * 4 + 17)
    · obtain ⟨mo, hmo⟩ := Option.isSome_iff_exists.mp
        ((lastWrite_isSome _ _ _).mpr
          (formatPos_targets (cw.version * 4 + 17) (FORMAT_INFO cw.ecl b) k hfmt))
      have hklen : k < (apply_mask { preMask cw a with mask := b }).value.length := by
        rw [eA2, hpa.2.2.2.2]
        exact hklt
      have hL : (place_format (apply_mask { preMask cw a with mask := b })).value.getD k
          Module.Unset = mo := by
        rw [hpf0]
        refine setAll_getD_lastWrite _ _ k mo hklen ?_
        rw [hww]
        exact hmo
      have hkind : mo = Module.FormatON ∨ mo = Module.FormatOFF :=
        lastWrite_mods _ _ _ (fun m => m = Module.FormatON ∨ m = Module.FormatOFF)
          (formatEntries_kind _ _) mo hmo
      have hpre : (preMask cw b).value.getD k Module.Unset = mo :=
        preMask_format cw b h1 h2 k hfmt mo hmo
      have hR : (apply_mask (preMask cw b)).value.getD k Module.Unset
          = (preMask cw b).value.getD k Module.Unset :=
        apply_mask_getD_format (preMask cw b) k (by rw [hpre]; exact hkind)
      rw [hL, hR, hpre]
    · have huntgt : ∀ e ∈ formatEntries (cw.version * 4 + 17) (FORMAT_INFO cw.ecl b),
          entryIdx (apply_mask { preMask cw a with mask := b }).width e ≠ k := by
        intro e he hik
        apply hfmt
        rw [hww] at hik
        have hcp := formatEntries_coords (cw.version * 4 + 17) _ e he
        rw [← hik]
        exact List.mem_map.mpr ⟨(e.1, e.2.1), hcp, rfl⟩
      have hstep : (place_format (apply_mask { preMask cw a with mask := b })).value.getD k
          Module.Unset
          = (apply_mask { preMask cw a with mask := b }).value.getD k Module.Unset := by
        rw [hpf0]
        exact setAll_getD_untargeted _ _ k Module.Unset huntgt
      have hA : (apply_mask { preMask cw a with mask := b }).value.getD k Module.Unset
          = maskCell b (cw.version * 4 + 17) k ((preMask cw a).value.getD k Module.Unset) := by
        have h0 := apply_mask_getD { preMask cw a with mask := b } k
          (by rw [hPaLen]; exact hklt)
        rw [mask_update_mask, mask_update_width, mask_update_value, hpa.1] at h0
        exact h0
      have hB : (apply_mask (preMask cw b)).value.getD k Module.Unset
          = maskCell b (cw.version * 4 + 17) k ((preMask cw b).value.getD k Module.Unset) := by
        have h0 := apply_mask_getD (preMask cw b) k (by rw [hpb.2.2.2.2]; exact hklt)
        rw [hpb.2.2.2.1, hpb.1] at h0
        exact h0
      rw [hstep, hA, hB, (hlock.2 k).2 hfmt]
  · have hlenL : (place_format (apply_mask { preMask cw a with mask := b })).value.length
        = (cw.version * 4 + 17) * (cw.version * 4 + 17) := by
      rw [eA1, eA2, hpa.2.2.2.2]
    have hlenR : (apply_mask (preMask cw b)).value.length
        = (cw.version * 4 + 17) * (cw.version * 4 + 17) := by
      rw [eB1, hpb.2.2.2.2]
    rw [getD_oob _ _ _ (by rw [hlenL]; omega), getD_oob _ _ _ (by rw [hlenR]; omega)]

theorem remask (cw : Codewords) (a b : Mask) (h1 : 1 ≤ cw.version) (h2 : cw.version ≤ 40) :
    place_format (apply_mask { apply_mask (Matrix.new cw (some a)) with mask := b })
      = Matrix.new cw (some b) := by
  rw [build_premask cw a, build_premask cw b, apply_mask_involutive]
  have hpa := preMask_props cw a
  have hpb := preMask_props cw b
  refine matrix_eq _ _ (remask_value cw a b h1 h2) ?_ ?_ ?_ ?_
  · rw [(place_format_sameShape (apply_mask { preMask cw a with mask := b })).1.1.symm,
      apply_mask_width, apply_mask_width, mask_update_width, hpa.1, hpb.1]
  · rw [(place_format_sameShape (apply_mask { preMask cw a with mask := b })).1.2.1.symm,
      apply_mask_version, apply_mask_version, mask_update_version, hpa.2.1, hpb.2.1]
  · rw [(place_format_sameShape (apply_mask { preMask cw a with mask := b })).1.2.2.1.symm,
      apply_mask_ecl, apply_mask_ecl, mask_update_ecl, hpa.2.2.1, hpb.2.2.1]
  · rw [(place_format_sameShape (apply_mask { preMask cw a with mask := b })).2,
      apply_mask_mask, apply_mask_mask, mask_update_mask, hpb.2.2.2.1]

theorem build_mask (cw : Codewords) (mk : Mask) : (Matrix.new cw (some mk)).mask = mk := by
  rw [build_premask cw mk, apply_mask_mask]
  exact (preMask_props cw mk).2.2.2.1

theorem selectStep_build (cw : Codewords) (a mk : Mask) (s : Nat) (mm : Mask)
    (h1 : 1 ≤ cw.version) (h2 : cw.version ≤ 40) :
    selectStep (Matrix.new cw (some a), s, mm) mk
      = (Matrix.new cw (some mk),
         if score (Matrix.new cw (some mk)) < s
         then (score (Matrix.new cw (some mk)), mk) else (s, mm)) := by
  unfold selectStep
  dsimp only
  rw [remask cw a mk h1 h2]
  by_cases hs : score (Matrix.new cw (some mk)) < s
  · rw [if_pos hs, if_pos hs]
  · rw [if_neg hs, if_neg hs]

theorem maskLoop_build (cw : Codewords) (h1 : 1 ≤ cw.version) (h2 : cw.version ≤ 40)
    (l : List Mask) :
    ∀ (a : Mask) (s : Nat) (mm : Mask),
      l.foldl selectStep (Matrix.new cw (some a), s, mm)
        = (Matrix.new cw (some (lastMask l a)),
           l.foldl (fun (best : Nat × Mask) mk =>
               let s := score (Matrix.new cw (some mk))
               if s < best.1 then (s, mk) else best) (s, mm)) := by
  induction l with
  | nil =>
    intro a s mm
    rfl
  | cons mk t ih =>
    intro a s mm
    simp only [List.foldl_cons]
    rw [selectStep_build cw a mk s mm h1 h2]
    have hlast : lastMask (mk :: t) a = lastMask t mk := rfl
    rw [hlast]
    generalize (if score (Matrix.new cw (some mk)) < s
      then (score (Matrix.new cw (some mk)), mk) else (s, mm)) = p
    obtain ⟨s2, mm2⟩ := p
    exact ih mk s2 mm2

theorem selectState_fst (cw : Codewords) (h1 : 1 ≤ cw.version) (h2 : cw.version ≤ 40) :
    (selectState cw).1 = Matrix.new cw (some Mask.M7) := by
  rw [selectState_eq]
  rw [place_all_build cw, build_mask cw Mask.M0]
  rw [maskLoop_build cw h1 h2 maskList Mask.M0 (score (Matrix.new cw (some Mask.M0))) Mask.M0]
  rfl

theorem selectState_best (cw : Codewords) (h1 : 1 ≤ cw.version) (h2 : cw.version ≤ 40) :
    (selectState cw).2.2 = bestMask cw := by
  rw [selectState_eq]
  rw [place_all_build cw, build_mask cw Mask.M0]
  rw [maskLoop_build cw h1 h2 maskList Mask.M0 (score (Matrix.new cw (some Mask.M0))) Mask.M0]
  rfl

/-- Claim C1: for every version 1-40, every ECL and every codewords byte
list, when no mask is forced, Matrix::new returns exactly the matrix built
fresh with the winning minimum-penalty-score mask (bestMask, the strict-min
fold over the eight candidates scored as fresh single-mask builds) applied
exactly once: the undo-then-reapply candidate loop commits exactly one
mask, never a superposition of two. -/
theorem c1_mask_selection_commits_best (cw : Codewords) (h1 : 1 ≤ cw.version)
    (h2 : cw.version ≤ 40) :
    Matrix.new cw none = Matrix.new cw (some (bestMask cw)) := by
  rw [matrix_new_none_eq cw, selectState_fst cw h1 h2, selectState_best cw h1 h2,
    build_mask cw Mask.M7]
  by_cases hbm : bestMask cw = Mask.M7
  · rw [if_neg (by simp [hbm]), hbm]
  · rw [if_pos hbm]
    exact remask cw Mask.M7 (bestMask cw) h1 h2

/-- Witness for claim C1 at version 1, ECL Low, empty codewords. -/
theorem c1_mask_selection_commits_best_witness :
    (1 ≤ (Codewords.mk [] 1 ECL.Low).version ∧ (Codewords.mk [] 1 ECL.Low).version ≤ 40)
    ∧ Matrix.new (Codewords.mk [] 1 ECL.Low) none
        = Matrix.new (Codewords.mk [] 1 ECL.Low)
            (some (bestMask (Codewords.mk [] 1 ECL.Low))) :=
  ⟨⟨le_refl 1, by decide⟩,
    c1_mask_selection_commits_best (Codewords.mk [] 1 ECL.Low) (le_refl 1) (by decide)⟩

end QRust
